import Mathlib

/-!
Verification development for the order-book maintenance program
(`orderbook_maintenance.py`).  Prices and quantities are modelled as exact
rationals (`ℚ`); Python dictionaries are modelled as association lists
(insertion-ordered, like `dict`); Python lists are Lean lists.  `ValueError`
(the program's InvalidArgument) is modelled with `Except String`, and a
missing registry entry (the spec's NotFound) with `Option.none`.
-/

namespace OrderBookSpec

attribute [local semireducible] Rat.sub Rat.inv Rat.mul Rat.add

/-- The program's centralized crossing tolerance constant `1e-15`. -/
def tol : ℚ := 1 / 1000000000000000

/-- Python `d.get(k)` / `d[k]` on a dict modelled as an association list:
the value of the first (under the maintained no-duplicate-keys discipline,
the only) entry whose key is `k`. -/
def dictGet {α β : Type} [DecidableEq α] : List (α × β) → α → Option β
  | [], _ => none
  | e :: t, k => if e.1 = k then some e.2 else dictGet t k

/-- Python `k in d` on a dict modelled as an association list. -/
def dictMem {α β : Type} [DecidableEq α] : List (α × β) → α → Bool
  | [], _ => false
  | e :: t, k => decide (e.1 = k) || dictMem t k

/-- Python `d[k] = v`: replace the entry if the key is present, otherwise
append a fresh entry (Python dicts keep insertion order). -/
def dictSet {α β : Type} [DecidableEq α] (d : List (α × β)) (k : α) (v : β) :
    List (α × β) :=
  if dictMem d k then d.map (fun e => if e.1 = k then (k, v) else e)
  else d ++ [(k, v)]

/-- Python `d.pop(k, None)`: drop every entry with key `k` (at most one under
the maintained discipline). -/
def dictPop {α β : Type} [DecidableEq α] (d : List (α × β)) (k : α) :
    List (α × β) :=
  d.filter (fun e => decide (e.1 ≠ k))

/-- `bisect.bisect_left(a, x)` by its specification on a sorted ascending
list: the number of elements strictly below `x`, i.e. the leftmost insertion
point keeping the list sorted. -/
def bisectLeft (a : List ℚ) (x : ℚ) : Nat :=
  (a.takeWhile (fun p => decide (p < x))).length

/-- `bisect.bisect_right(a, x)` by its specification on a sorted ascending
list: the number of elements at or below `x`, i.e. the rightmost insertion
point keeping the list sorted. -/
def bisectRight (a : List ℚ) (x : ℚ) : Nat :=
  (a.takeWhile (fun p => decide (p ≤ x))).length

/-- One side (bids or asks) of the order book: class `SideBook` of the
source, with its `is_ask` flag, its sorted `prices` list and its
price-to-quantity dict `qty`. -/
structure SideBook where
  is_ask : Bool
  prices : List ℚ
  qty : List (ℚ × ℚ)
deriving DecidableEq

/-- `SideBook(is_ask=...)` freshly constructed: both containers empty. -/
def SideBook.emptySide (isAsk : Bool) : SideBook := ⟨isAsk, [], []⟩

/-- `SideBook._key_index`: insertion index obeying side ordering
(asks ascending, bids descending via negated keys), exactly as the source
computes it with `bisect.bisect_left`. -/
def SideBook.key_index (b : SideBook) (price : ℚ) : Nat :=
  if b.is_ask then bisectLeft b.prices price
  else bisectLeft (b.prices.map (fun p => -p)) (-price)

/-- `SideBook.update_level(price, new_qty)`: set the aggregate quantity at
`price`; remove the level if `new_qty <= 0`.  The removal locates the price
by `list.index` (first occurrence) and pops it; the insertion places the
price at `_key_index`. -/
def SideBook.update_level (b : SideBook) (price new_qty : ℚ) : SideBook :=
  if new_qty ≤ 0 then
    if dictMem b.qty price then
      { b with
        prices := b.prices.eraseIdx (b.prices.findIdx (fun p => decide (p = price))),
        qty := dictPop b.qty price }
    else b
  else if dictMem b.qty price then
    { b with qty := dictSet b.qty price new_qty }
  else
    { b with
      prices := b.prices.insertIdx (b.key_index price) price,
      qty := dictSet b.qty price new_qty }

/-- `SideBook.notional_ahead(price)`: sum of `p * qty[p]` over the levels
better-or-equal than `price` — a prefix located by `bisect_right` for the
ascending ask side, a scan-until-worse for the descending bid side. -/
def SideBook.notional_ahead (b : SideBook) (price : ℚ) : ℚ :=
  if b.prices = [] then 0
  else if b.is_ask then
    if bisectRight b.prices price = 0 then 0
    else (b.prices.take (bisectRight b.prices price)).foldl
      (fun total p => total + p * ((dictGet b.qty p).getD 0)) 0
  else
    (b.prices.takeWhile (fun p => decide (price ≤ p))).foldl
      (fun total p => total + p * ((dictGet b.qty p).getD 0)) 0

/-- `SideBook.best_n(n)`: the first `n` levels as (price, quantity) pairs. -/
def SideBook.best_n (b : SideBook) (n : Nat) : List (ℚ × ℚ) :=
  (b.prices.take n).map (fun p => (p, (dictGet b.qty p).getD 0))

/-- The full book state of class `OrderBook`: one bid side, one ask side. -/
structure OrderBook where
  bids : SideBook
  asks : SideBook
deriving DecidableEq

/-- `OrderBook.__init__`: fresh empty bid and ask sides. -/
def OrderBook.empty : OrderBook :=
  ⟨SideBook.emptySide false, SideBook.emptySide true⟩

/-- Fold `update_level` over a batch of (price, quantity) pairs, as the
`for price, qty in ...` loops of `apply_snapshot` / `apply_diff` do. -/
def applyLevels (sb : SideBook) (levels : List (ℚ × ℚ)) : SideBook :=
  levels.foldl (fun b e => b.update_level e.1 e.2) sb

/-- `OrderBook.apply_snapshot`: discard both sides and rebuild each from its
batch. -/
def OrderBook.apply_snapshot (_ob : OrderBook) (bidLevels askLevels : List (ℚ × ℚ)) :
    OrderBook :=
  ⟨applyLevels (SideBook.emptySide false) bidLevels,
   applyLevels (SideBook.emptySide true) askLevels⟩

/-- `OrderBook.apply_diff`: upsert each batch against the current sides. -/
def OrderBook.apply_diff (ob : OrderBook) (bidLevels askLevels : List (ℚ × ℚ)) :
    OrderBook :=
  ⟨applyLevels ob.bids bidLevels, applyLevels ob.asks askLevels⟩

/-- The `{"bids": ..., "asks": ...}` result of `OrderBook.top10`. -/
structure TopLevels where
  bids : List (ℚ × ℚ)
  asks : List (ℚ × ℚ)
deriving DecidableEq

/-- `OrderBook.top10()`. -/
def OrderBook.top10 (ob : OrderBook) : TopLevels :=
  ⟨ob.bids.best_n 10, ob.asks.best_n 10⟩

/-- The matching `while` loop of `place_limit_order`, fuelled (the fuel
passed at the call site bounds the iteration count: every iteration either
removes the best level of `sb` or zeroes the remaining quantity, ending the
loop).  `marketable p` is the side-specific price test
(`p <= price` against asks for a buy, `p >= price` against bids for a
sell); the body mirrors the source: read the best level, take
`min(level_q, qty)`, write back the remainder, clean up a remainder at or
below `tol`, and reduce the remaining quantity. -/
def crossLoop (marketable : ℚ → Bool) : Nat → SideBook → ℚ → SideBook × ℚ
  | 0, sb, q => (sb, q)
  | fuel + 1, sb, q =>
    match sb.prices with
    | [] => (sb, q)
    | p :: _ =>
      if marketable p = true ∧ tol < q then
        let level_q := (dictGet sb.qty p).getD 0
        let take := min level_q q
        let sb1 := sb.update_level p (level_q - take)
        let sb2 :=
          if dictMem sb1.qty p = true ∧ (dictGet sb1.qty p).getD 0 ≤ tol then
            sb1.update_level p 0
          else sb1
        crossLoop marketable fuel sb2 (q - take)
      else (sb, q)

/-- Python `side.lower()`: lower-case the token character by character
(the standard library's `String.toLower` is defined by well-founded
recursion and does not reduce definitionally; this structural rendering
agrees with it). -/
def strLower (s : String) : String := ⟨s.data.map Char.toLower⟩

/-- `OrderBook.place_limit_order(side, price, qty)`: lower-case the side
token, return the current top-10 when `qty <= 0`, otherwise cross against
the opposite side and rest any residual above `tol` at the limit price,
accumulating with the quantity already there; an unrecognized token raises
`ValueError`.  The returned pair is the book state at exit together with
the normal result or the raised error. -/
def OrderBook.place_limit_order (ob : OrderBook) (side : String) (price qty : ℚ) :
    OrderBook × Except String TopLevels :=
  let s := strLower side
  if qty ≤ 0 then (ob, Except.ok ob.top10)
  else if s = "buy" ∨ s = "bid" then
    let r := crossLoop (fun p => decide (p ≤ price)) (ob.asks.prices.length + 1) ob.asks qty
    let bids1 :=
      if tol < r.2 then
        ob.bids.update_level price (((dictGet ob.bids.qty price).getD 0) + r.2)
      else ob.bids
    let ob1 : OrderBook := ⟨bids1, r.1⟩
    (ob1, Except.ok ob1.top10)
  else if s = "sell" ∨ s = "ask" then
    let r := crossLoop (fun p => decide (price ≤ p)) (ob.bids.prices.length + 1) ob.bids qty
    let asks1 :=
      if tol < r.2 then
        ob.asks.update_level price (((dictGet ob.asks.qty price).getD 0) + r.2)
      else ob.asks
    let ob1 : OrderBook := ⟨r.1, asks1⟩
    (ob1, Except.ok ob1.top10)
  else (ob, Except.error "side must be buy/bid or sell/ask")

/-- One parsed feed record: a row of the CSV after `_parse`. -/
structure FeedRecord where
  symbol : String
  time : ℚ
  bids : List (ℚ × ℚ)
  asks : List (ℚ × ℚ)
deriving DecidableEq

/-- Class `OrderBookEngine`: the per-symbol registry of live books (the CSV
path is replaced by passing the parsed record stream to `build_until`). -/
structure OrderBookEngine where
  books : List (String × OrderBook)
deriving DecidableEq

/-- A freshly constructed engine: empty registry. -/
def OrderBookEngine.emptyEngine : OrderBookEngine := ⟨[]⟩

/-- The row loop of `build_until`: skip rows of other symbols, apply the
first qualifying row as a snapshot and later ones as diffs, and stop right
after applying a row whose timestamp reaches `until_ts`. -/
def buildGo (symbol : String) (until_ts : ℚ) :
    OrderBook → Bool → List FeedRecord → OrderBook
  | book, _, [] => book
  | book, seen, r :: rest =>
    if r.symbol = symbol then
      let book2 :=
        if seen then book.apply_diff r.bids r.asks
        else book.apply_snapshot r.bids r.asks
      if until_ts ≤ r.time then book2
      else buildGo symbol until_ts book2 true rest
    else buildGo symbol until_ts book seen rest

/-- `OrderBookEngine.build_until(symbol, until_ts)` over the parsed stream
`rows`: `_book` fetches (creating if absent) the symbol's book, the row
loop mutates it in place, and the top-10 of the final state is returned;
the registry afterwards maps the symbol to that final state. -/
def OrderBookEngine.build_until (E : OrderBookEngine) (rows : List FeedRecord)
    (symbol : String) (until_ts : ℚ) : OrderBookEngine × TopLevels :=
  let book0 := (dictGet E.books symbol).getD OrderBook.empty
  let final := buildGo symbol until_ts book0 false rows
  (⟨dictSet E.books symbol final⟩, final.top10)

/-- `OrderBookEngine.expose(symbol)`: `self.books.get(symbol, None)`. -/
def OrderBookEngine.expose (E : OrderBookEngine) (symbol : String) :
    Option OrderBook :=
  dictGet E.books symbol

/-! ### Dictionary lemmas -/

theorem dictGet_isSome {α β : Type} [DecidableEq α] (d : List (α × β)) (k : α) :
    (dictGet d k).isSome = dictMem d k := by
  induction d with
  | nil => rfl
  | cons e t ih =>
    by_cases h : e.1 = k <;> simp [dictGet, dictMem, h, ih]

theorem dictGet_none_iff {α β : Type} [DecidableEq α] (d : List (α × β)) (k : α) :
    dictGet d k = none ↔ dictMem d k = false := by
  rw [← dictGet_isSome]
  cases dictGet d k <;> simp

theorem dictGet_append {α β : Type} [DecidableEq α] (s t : List (α × β)) (x : α) :
    dictGet (s ++ t) x =
      if (dictGet s x).isSome then dictGet s x else dictGet t x := by
  induction s with
  | nil => simp [dictGet]
  | cons e s2 ih =>
    by_cases h : e.1 = x <;> simp [dictGet, h, ih]

theorem dictGet_map_entrywise {α β : Type} [DecidableEq α] (d : List (α × β)) (f : α × β → α × β)
    (hf : ∀ e : α × β, (f e).1 = e.1) (x : α) :
    dictGet (d.map f) x = (dictGet d x).map (fun v => (f (x, v)).2) := by
  induction d with
  | nil => rfl
  | cons e t ih =>
    obtain ⟨a, b⟩ := e
    by_cases h : a = x
    · subst h
      have h2 : (f (a, b)).1 = a := hf (a, b)
      simp [dictGet, h2]
    · have h2 : ¬ (f (a, b)).1 = x := by rw [hf (a, b)]; exact h
      simp [dictGet, h, h2, ih]

theorem dictGet_dictSet {α β : Type} [DecidableEq α] (d : List (α × β)) (k : α) (v : β) (x : α) :
    dictGet (dictSet d k v) x = if x = k then some v else dictGet d x := by
  unfold dictSet
  by_cases hm : dictMem d k
  · rw [if_pos hm,
      dictGet_map_entrywise d _ (fun e => by by_cases h : e.1 = k <;> simp [h])]
    by_cases hxk : x = k
    · subst hxk
      have hs : (dictGet d x).isSome = true := by rw [dictGet_isSome]; exact hm
      obtain ⟨w, hw⟩ := Option.isSome_iff_exists.mp hs
      simp [hw]
    · rw [if_neg hxk]
      cases hg : dictGet d x <;> simp [hxk]
  · rw [if_neg hm, dictGet_append]
    have hnone : dictGet d k = none :=
      (dictGet_none_iff d k).mpr (by revert hm; cases dictMem d k <;> simp)
    by_cases hxk : x = k
    · subst hxk
      simp [hnone, dictGet]
    · have hkx : ¬ k = x := fun h => hxk h.symm
      cases hg : dictGet d x <;> simp [hg, dictGet, hxk, hkx]

theorem dictGet_dictPop {α β : Type} [DecidableEq α] (d : List (α × β)) (k : α) (x : α) :
    dictGet (dictPop d k) x = if x = k then none else dictGet d x := by
  induction d with
  | nil => by_cases hxk : x = k <;> simp [dictGet, dictPop, hxk]
  | cons e t ih =>
    by_cases hek : e.1 = k
    · have hne : ∀ hx : x = k, ¬ e.1 = x → True := fun _ _ => trivial
      by_cases hxk : x = k
      · subst hxk
        simp [dictPop, List.filter_cons, hek, dictGet] at ih ⊢
        simpa [dictGet, dictPop] using ih
      · have hex : ¬ e.1 = x := fun h => hxk ((h.symm.trans hek))
        have hkx : ¬ k = x := fun h => hxk h.symm
        simp [dictPop, List.filter_cons, hek, dictGet, hex, hxk, hkx] at ih ⊢
        simpa [dictGet, dictPop] using ih
    · by_cases hex : e.1 = x
      · have hxk : ¬ x = k := fun h => hek (hex.trans h)
        simp [dictPop, List.filter_cons, hek, dictGet, hex, hxk]
      · simp [dictPop, List.filter_cons, hek, dictGet, hex] at ih ⊢
        simpa [dictGet, dictPop] using ih

theorem mem_dictSet {α β : Type} [DecidableEq α] (d : List (α × β)) (k : α) (v : β) (e : α × β)
    (he : e ∈ dictSet d k v) : e = (k, v) ∨ e ∈ d := by
  unfold dictSet at he
  by_cases hm : dictMem d k
  · simp only [hm, if_true, List.mem_map] at he
    obtain ⟨a, ha, hae⟩ := he
    by_cases hak : a.1 = k
    · simp [hak] at hae; exact Or.inl hae.symm
    · simp [hak] at hae; exact Or.inr (hae ▸ ha)
  · simp only [hm, Bool.false_eq_true, if_false, List.mem_append,
      List.mem_singleton] at he
    rcases he with h | h
    · exact Or.inr h
    · exact Or.inl h

theorem mem_dictPop {α β : Type} [DecidableEq α] (d : List (α × β)) (k : α) (e : α × β)
    (he : e ∈ dictPop d k) : e ∈ d :=
  List.mem_of_mem_filter he

/-! ### Price-list lemmas: removal and sorted insertion -/

/-- Abstract sorted insertion: place `p` right before the first element `h`
with `c p h`; this is what inserting at a `bisect_left` index amounts to. -/
def insSorted (c : ℚ → ℚ → Bool) (p : ℚ) : List ℚ → List ℚ
  | [] => [p]
  | h :: t => if c p h then p :: h :: t else h :: insSorted c p t

/-- The comparison the side's `_key_index` realizes: for asks `p` goes
before the first `h` with `p ≤ h`, for bids before the first `h` with
`h ≤ p`. -/
def keyLE (isAsk : Bool) (a b : ℚ) : Bool :=
  if isAsk then decide (a ≤ b) else decide (b ≤ a)

theorem eraseIdx_findIdx_eq_filter (l : List ℚ) (p : ℚ) (hnd : l.Nodup) :
    l.eraseIdx (l.findIdx (fun y => decide (y = p))) =
      l.filter (fun y => decide (y ≠ p)) := by
  induction l with
  | nil => rfl
  | cons h t ih =>
    rcases List.nodup_cons.mp hnd with ⟨hht, hnd2⟩
    by_cases hhp : h = p
    · subst hhp
      have hfi : (h :: t).findIdx (fun y => decide (y = h)) = 0 := by
        rw [List.findIdx_cons]; simp
      have hfe : (h :: t).filter (fun y => decide (y ≠ h))
          = t.filter (fun y => decide (y ≠ h)) := by
        rw [List.filter_cons]; simp
      have hall : ∀ a ∈ t, (fun y => decide (y ≠ h)) a = true := by
        intro a ha
        simp only [ne_eq, decide_eq_true_eq]
        exact fun hah => hht (hah ▸ ha)
      rw [hfi, hfe, List.eraseIdx_cons_zero, List.filter_eq_self.mpr hall]
    · have hfi : (h :: t).findIdx (fun y => decide (y = p))
          = t.findIdx (fun y => decide (y = p)) + 1 := by
        rw [List.findIdx_cons]; simp [hhp]
      have hfe : (h :: t).filter (fun y => decide (y ≠ p))
          = h :: t.filter (fun y => decide (y ≠ p)) := by
        rw [List.filter_cons]; simp [hhp]
      rw [hfi, hfe, List.eraseIdx_cons_succ, ih hnd2]

theorem mem_insSorted (c : ℚ → ℚ → Bool) (p x : ℚ) (l : List ℚ) :
    x ∈ insSorted c p l ↔ x = p ∨ x ∈ l := by
  induction l with
  | nil => simp [insSorted]
  | cons h t ih =>
    by_cases hc : c p h
    · simp [insSorted, hc, List.mem_cons]
    · simp [insSorted, hc, List.mem_cons, ih]
      tauto

theorem pairwise_insSorted (r : ℚ → ℚ → Prop) (c : ℚ → ℚ → Bool)
    (hA : ∀ a b, c a b = true → a ≠ b → r a b)
    (hB : ∀ a b, c a b = false → r b a)
    (htr : ∀ a b d, r a b → r b d → r a d)
    (p : ℚ) (l : List ℚ) (hp : p ∉ l) (hl : l.Pairwise r) :
    (insSorted c p l).Pairwise r := by
  induction l with
  | nil => simp [insSorted]
  | cons h t ih =>
    rcases List.pairwise_cons.mp hl with ⟨hh, ht⟩
    have hph : p ≠ h := fun he => hp (he ▸ List.mem_cons_self h t)
    have hpt : p ∉ t := fun hm => hp (List.mem_cons_of_mem h hm)
    by_cases hc : c p h
    · rw [insSorted, if_pos hc]
      refine List.pairwise_cons.mpr ⟨?_, hl⟩
      intro x hx
      rcases List.mem_cons.mp hx with hxh | hxt
      · exact hxh ▸ hA p h hc hph
      · exact htr p h x (hA p h hc hph) (hh x hxt)
    · rw [insSorted, if_neg hc]
      refine List.pairwise_cons.mpr ⟨?_, ih hpt ht⟩
      intro x hx
      rcases (mem_insSorted c p x t).mp hx with hxp | hxt
      · exact hxp ▸ hB p h (by simpa using hc)
      · exact hh x hxt

theorem insertIdx_bisectLeft_asc (l : List ℚ) (p : ℚ) :
    l.insertIdx (bisectLeft l p) p = insSorted (fun a b => decide (a ≤ b)) p l := by
  induction l with
  | nil => rfl
  | cons h t ih =>
    by_cases hc : h < p
    · have hc2 : ¬ (p ≤ h) := not_le.mpr hc
      have h1 : bisectLeft (h :: t) p = bisectLeft t p + 1 := by
        simp [bisectLeft, List.takeWhile_cons, hc]
      rw [h1, List.insertIdx_succ_cons]
      rw [insSorted, if_neg (by simp [hc2])]
      exact congrArg (h :: ·) ih
    · have hc2 : p ≤ h := le_of_not_lt hc
      have h1 : bisectLeft (h :: t) p = 0 := by
        simp [bisectLeft, List.takeWhile_cons, hc]
      rw [h1, List.insertIdx_zero]
      rw [insSorted, if_pos (by simp [hc2])]

theorem insertIdx_bisectLeft_desc (l : List ℚ) (p : ℚ) :
    l.insertIdx (bisectLeft (l.map (fun q => -q)) (-p)) p =
      insSorted (fun a b => decide (b ≤ a)) p l := by
  induction l with
  | nil => rfl
  | cons h t ih =>
    by_cases hc : p < h
    · have hneg : (-h : ℚ) < -p := neg_lt_neg hc
      have hc2 : ¬ (h ≤ p) := not_le.mpr hc
      have h1 : bisectLeft ((h :: t).map (fun q => -q)) (-p)
          = bisectLeft (t.map (fun q => -q)) (-p) + 1 := by
        simp [bisectLeft, List.takeWhile_cons, hneg]
      rw [h1, List.insertIdx_succ_cons]
      rw [insSorted, if_neg (by simp [hc2])]
      exact congrArg (h :: ·) ih
    · have hc2 : h ≤ p := le_of_not_lt hc
      have hneg : ¬ ((-h : ℚ) < -p) := by simpa using hc2
      have h1 : bisectLeft ((h :: t).map (fun q => -q)) (-p) = 0 := by
        simp [bisectLeft, List.takeWhile_cons, hneg]
      rw [h1, List.insertIdx_zero]
      rw [insSorted, if_pos (by simp [hc2])]

theorem key_index_insert (b : SideBook) (p : ℚ) :
    b.prices.insertIdx (b.key_index p) p = insSorted (keyLE b.is_ask) p b.prices := by
  unfold SideBook.key_index keyLE
  cases b.is_ask with
  | false => simpa using insertIdx_bisectLeft_desc b.prices p
  | true => simpa using insertIdx_bisectLeft_asc b.prices p

/-! ### The side invariant -/

/-- The side's strict order: ascending for asks, descending for bids. -/
def sideRel (isAsk : Bool) : ℚ → ℚ → Prop :=
  fun a b => if isAsk then a < b else b < a

/-- The data-model invariant of one side: prices strictly monotonic in the
side's direction, price sequence and quantity dict keyed identically, and
every stored quantity strictly positive. -/
structure SideInv (b : SideBook) : Prop where
  sorted : b.prices.Pairwise (sideRel b.is_ask)
  mem_iff : ∀ p : ℚ, p ∈ b.prices ↔ (dictGet b.qty p).isSome = true
  pos : ∀ e ∈ b.qty, (0 : ℚ) < e.2

theorem sideRel_ne (isAsk : Bool) (a b : ℚ) (h : sideRel isAsk a b) : a ≠ b := by
  unfold sideRel at h
  cases isAsk <;> simp at h <;> exact (fun he => absurd h (by simp [he]))

theorem SideInv.nodup (b : SideBook) (hb : SideInv b) : b.prices.Nodup :=
  hb.sorted.imp (fun h => sideRel_ne _ _ _ h)

theorem SideInv.emptySide (isAsk : Bool) : SideInv (SideBook.emptySide isAsk) := by
  refine ⟨List.Pairwise.nil, ?_, ?_⟩ <;> simp [SideBook.emptySide, dictGet]

/-! ### Effect of `update_level` on the two containers -/

theorem update_level_is_ask (b : SideBook) (p v : ℚ) :
    (b.update_level p v).is_ask = b.is_ask := by
  unfold SideBook.update_level
  split <;> [skip; split] <;> try split
  all_goals rfl

theorem dictGet_update_level (b : SideBook) (p v x : ℚ) :
    dictGet (b.update_level p v).qty x =
      if x = p then (if v ≤ 0 then none else some v) else dictGet b.qty x := by
  unfold SideBook.update_level
  by_cases hv : v ≤ 0
  · rw [if_pos hv]
    by_cases hm : dictMem b.qty p
    · rw [if_pos hm]
      simpa [hv] using dictGet_dictPop b.qty p x
    · rw [if_neg hm]
      by_cases hxp : x = p
      · subst hxp
        have : dictGet b.qty x = none :=
          (dictGet_none_iff b.qty x).mpr (by revert hm; cases dictMem b.qty x <;> simp)
        simp [hv, this]
      · simp [hxp]
  · rw [if_neg hv]
    by_cases hm : dictMem b.qty p
    · rw [if_pos hm]
      simpa [hv] using dictGet_dictSet b.qty p v x
    · rw [if_neg hm]
      simpa [hv] using dictGet_dictSet b.qty p v x

theorem update_level_prices_remove (b : SideBook) (p v : ℚ) (hv : v ≤ 0)
    (hm : (dictGet b.qty p).isSome = true) (hnd : b.prices.Nodup) :
    (b.update_level p v).prices = b.prices.filter (fun y => decide (y ≠ p)) := by
  have hm2 : dictMem b.qty p = true := by rw [← dictGet_isSome]; exact hm
  unfold SideBook.update_level
  rw [if_pos hv, if_pos hm2]
  exact eraseIdx_findIdx_eq_filter b.prices p hnd

theorem update_level_noop (b : SideBook) (p v : ℚ) (hv : v ≤ 0)
    (hm : dictGet b.qty p = none) : b.update_level p v = b := by
  have hm2 : dictMem b.qty p = false := (dictGet_none_iff b.qty p).mp hm
  unfold SideBook.update_level
  rw [if_pos hv, if_neg (by simp [hm2])]

theorem update_level_prices_replace (b : SideBook) (p v : ℚ) (hv : 0 < v)
    (hm : (dictGet b.qty p).isSome = true) :
    (b.update_level p v).prices = b.prices := by
  have hm2 : dictMem b.qty p = true := by rw [← dictGet_isSome]; exact hm
  unfold SideBook.update_level
  rw [if_neg (by simpa using hv), if_pos hm2]

theorem update_level_prices_insert (b : SideBook) (p v : ℚ) (hv : 0 < v)
    (hm : dictGet b.qty p = none) :
    (b.update_level p v).prices = insSorted (keyLE b.is_ask) p b.prices := by
  have hm2 : dictMem b.qty p = false := (dictGet_none_iff b.qty p).mp hm
  unfold SideBook.update_level
  rw [if_neg (by simpa using hv), if_neg (by simp [hm2])]
  exact key_index_insert b p

/-! ### Invariant preservation -/

theorem pairwise_insSorted_side (isAsk : Bool) (p : ℚ) (l : List ℚ)
    (hp : p ∉ l) (hl : l.Pairwise (sideRel isAsk)) :
    (insSorted (keyLE isAsk) p l).Pairwise (sideRel isAsk) := by
  cases isAsk with
  | true =>
    refine pairwise_insSorted _ _ ?_ ?_ ?_ p l hp hl
    · intro a b hc hne
      simp only [keyLE, if_true, decide_eq_true_eq] at hc
      simpa [sideRel] using lt_of_le_of_ne hc hne
    · intro a b hc
      simp only [keyLE, if_true] at hc
      have : ¬ (a ≤ b) := by simpa using hc
      simpa [sideRel] using lt_of_not_le this
    · intro a b d hab hbd
      simp only [sideRel, if_true] at hab hbd ⊢
      exact lt_trans hab hbd
  | false =>
    refine pairwise_insSorted _ _ ?_ ?_ ?_ p l hp hl
    · intro a b hc hne
      simp only [keyLE] at hc
      simp only [Bool.false_eq_true, if_false, decide_eq_true_eq] at hc
      simpa [sideRel] using lt_of_le_of_ne hc (fun h => hne h.symm)
    · intro a b hc
      simp only [keyLE] at hc
      simp only [Bool.false_eq_true, if_false] at hc
      have : ¬ (b ≤ a) := by simpa using hc
      simpa [sideRel] using lt_of_not_le this
    · intro a b d hab hbd
      simp only [sideRel, Bool.false_eq_true, if_false] at hab hbd ⊢
      exact lt_trans hbd hab

theorem SideInv.update_level (b : SideBook) (hb : SideInv b) (p v : ℚ) :
    SideInv (b.update_level p v) := by
  have hget := dictGet_update_level b p v
  by_cases hv : v ≤ 0
  · cases hm : dictGet b.qty p with
    | none =>
      rw [update_level_noop b p v hv hm]
      exact hb
    | some w =>
      have hms : (dictGet b.qty p).isSome = true := by rw [hm]; rfl
      have hpr := update_level_prices_remove b p v hv hms (hb.nodup b)
      refine ⟨?_, ?_, ?_⟩
      · rw [update_level_is_ask, hpr]
        exact hb.sorted.filter _
      · intro x
        rw [hpr, List.mem_filter, hget x]
        by_cases hxp : x = p
        · simp [hxp, hv]
        · simp only [hxp, if_false]
          rw [← hb.mem_iff x]
          simp [hxp]
      · intro e he
        unfold SideBook.update_level at he
        rw [if_pos hv, if_pos (by rw [← dictGet_isSome]; exact hms)] at he
        exact hb.pos e (mem_dictPop _ _ _ he)
  · have hv2 : 0 < v := lt_of_not_le hv
    cases hm : dictGet b.qty p with
    | some w =>
      have hms : (dictGet b.qty p).isSome = true := by rw [hm]; rfl
      have hpr := update_level_prices_replace b p v hv2 hms
      refine ⟨?_, ?_, ?_⟩
      · rw [update_level_is_ask, hpr]
        exact hb.sorted
      · intro x
        rw [hpr, hget x]
        by_cases hxp : x = p
        · subst hxp
          simp only [if_pos rfl, hv, if_false]
          rw [hb.mem_iff x, hm]
          simp
        · simp only [hxp, if_false]
          exact hb.mem_iff x
      · intro e he
        unfold SideBook.update_level at he
        rw [if_neg (by simpa using hv2),
          if_pos (by rw [← dictGet_isSome]; exact hms)] at he
        rcases mem_dictSet _ _ _ _ he with h | h
        · rw [h]; exact hv2
        · exact hb.pos e h
    | none =>
      have hpr := update_level_prices_insert b p v hv2 hm
      have hpm : p ∉ b.prices := by
        rw [hb.mem_iff p, hm]
        simp
      refine ⟨?_, ?_, ?_⟩
      · rw [update_level_is_ask, hpr]
        exact pairwise_insSorted_side b.is_ask p b.prices hpm hb.sorted
      · intro x
        rw [hpr, mem_insSorted, hget x]
        by_cases hxp : x = p
        · simp [hxp, hv]
        · simp only [hxp, if_false, false_or]
          exact hb.mem_iff x
      · intro e he
        unfold SideBook.update_level at he
        rw [if_neg (by simpa using hv2),
          if_neg (by simp [(dictGet_none_iff b.qty p).mp hm])] at he
        rcases mem_dictSet _ _ _ _ he with h | h
        · rw [h]; exact hv2
        · exact hb.pos e h

/-! ### The observable levels of a side -/

/-- The observable content of a side: its price sequence paired with the
stored quantities (the dict's internal entry order is not observable). -/
def SideBook.toLevels (b : SideBook) : List (ℚ × ℚ) :=
  b.prices.map (fun p => (p, (dictGet b.qty p).getD 0))

theorem toLevels_keys (b : SideBook) : b.toLevels.map Prod.fst = b.prices := by
  rw [SideBook.toLevels, List.map_map]
  have : (Prod.fst ∘ fun p => ((p : ℚ), (dictGet b.qty p).getD 0)) = id := rfl
  rw [this, List.map_id]

theorem dictGet_entry_mem {α β : Type} [DecidableEq α] (d : List (α × β)) (k : α) (w : β)
    (h : dictGet d k = some w) : (k, w) ∈ d := by
  induction d with
  | nil => simp [dictGet] at h
  | cons e t ih =>
    by_cases he : e.1 = k
    · rw [dictGet, if_pos he] at h
      have : e = (k, w) := by
        obtain ⟨a, b⟩ := e
        simp at he h
        simp [he, h]
      exact this ▸ List.mem_cons_self e t
    · rw [dictGet, if_neg he] at h
      exact List.mem_cons_of_mem e (ih h)

theorem getD_pos_of_mem (b : SideBook) (hb : SideInv b) (p : ℚ)
    (hp : p ∈ b.prices) : 0 < (dictGet b.qty p).getD 0 := by
  have hs := (hb.mem_iff p).mp hp
  obtain ⟨w, hw⟩ := Option.isSome_iff_exists.mp hs
  have := hb.pos (p, w) (dictGet_entry_mem b.qty p w hw)
  simpa [hw] using this

theorem dictGet_eq_some_getD (b : SideBook) (hb : SideInv b) (p : ℚ)
    (hp : p ∈ b.prices) : dictGet b.qty p = some ((dictGet b.qty p).getD 0) := by
  have hs := (hb.mem_iff p).mp hp
  obtain ⟨w, hw⟩ := Option.isSome_iff_exists.mp hs
  simp [hw]

theorem any_toLevels_key (b : SideBook) (p : ℚ) :
    (b.toLevels.any (fun e => decide (e.1 = p)) = true) ↔ p ∈ b.prices := by
  simp [SideBook.toLevels, List.any_map, List.any_eq_true, Function.comp]

/-! ### The spec's upsert, rendered on the observable levels -/

/-- From the spec's words: insert the level `(p, q)` at its sorted position
(found with the side's comparator). -/
def insLevelSorted (isAsk : Bool) (p q : ℚ) : List (ℚ × ℚ) → List (ℚ × ℚ)
  | [] => [(p, q)]
  | e :: t =>
    if keyLE isAsk p e.1 then (p, q) :: e :: t
    else e :: insLevelSorted isAsk p q t

/-- From the spec's words for `upsert(price, quantity)`: a quantity at or
below the threshold removes the level if present (no-op if absent); an
existing price gets its quantity replaced; a fresh price is inserted at its
sorted position. -/
def specUpsert (isAsk : Bool) (p q : ℚ) (levels : List (ℚ × ℚ)) :
    List (ℚ × ℚ) :=
  if q ≤ 0 then levels.filter (fun e => decide (e.1 ≠ p))
  else if levels.any (fun e => decide (e.1 = p)) then
    levels.map (fun e => if e.1 = p then (p, q) else e)
  else insLevelSorted isAsk p q levels

theorem map_insSorted_levels (isAsk : Bool) (p q : ℚ) (g : ℚ → ℚ)
    (l : List ℚ) (hp : p ∉ l) :
    (insSorted (keyLE isAsk) p l).map (fun x => (x, if x = p then q else g x)) =
      insLevelSorted isAsk p q (l.map (fun x => (x, g x))) := by
  induction l with
  | nil => simp [insSorted, insLevelSorted]
  | cons h t ih =>
    have hhp : ¬ h = p := fun he => hp (he ▸ List.mem_cons_self h t)
    have hpt : p ∉ t := fun hm => hp (List.mem_cons_of_mem h hm)
    have ht : List.map (fun x => ((x : ℚ), if x = p then q else g x)) t
        = List.map (fun x => (x, g x)) t := by
      apply List.map_congr_left
      intro x hx
      have hxp : ¬ x = p := fun he => hpt (he ▸ hx)
      simp [hxp]
    by_cases hc : keyLE isAsk p h
    · have hc2 : keyLE isAsk p ((h, g h) : ℚ × ℚ).1 = true := by simpa using hc
      rw [insSorted, if_pos hc]
      simp only [List.map_cons]
      rw [insLevelSorted, if_pos hc2, ht]
      simp [hhp]
    · have hc2 : ¬ (keyLE isAsk p ((h, g h) : ℚ × ℚ).1 = true) := by simpa using hc
      rw [insSorted, if_neg hc]
      simp only [List.map_cons]
      rw [insLevelSorted, if_neg hc2, ih hpt]
      simp [hhp]

/-- The code's `update_level`, observed through `toLevels`, is exactly the
spec's upsert with threshold `0`. -/
theorem update_level_toLevels (b : SideBook) (hb : SideInv b) (p q : ℚ) :
    (b.update_level p q).toLevels = specUpsert b.is_ask p q b.toLevels := by
  unfold specUpsert
  by_cases hq : q ≤ 0
  · rw [if_pos hq]
    cases hm : dictGet b.qty p with
    | none =>
      rw [update_level_noop b p q hq hm]
      have hpm : p ∉ b.prices := by
        rw [hb.mem_iff p, hm]; simp
      symm
      apply List.filter_eq_self.mpr
      intro e he
      obtain ⟨x, hx, hxe⟩ := List.mem_map.mp he
      simp only [ne_eq, decide_eq_true_eq]
      rw [← hxe]
      exact fun hxp => hpm (hxp ▸ hx)
    | some w =>
      have hms : (dictGet b.qty p).isSome = true := by rw [hm]; rfl
      unfold SideBook.toLevels
      rw [update_level_prices_remove b p q hq hms (hb.nodup b)]
      rw [List.filter_map]
      have hpred : ((fun e => decide ((e : ℚ × ℚ).1 ≠ p)) ∘
          (fun x => ((x : ℚ), (dictGet b.qty x).getD 0)))
          = fun y => decide (y ≠ p) := rfl
      rw [hpred]
      apply List.map_congr_left
      intro x hx
      have hxp : ¬ x = p := by
        have := List.of_mem_filter hx
        simpa using this
      rw [dictGet_update_level b p q x, if_neg hxp]
  · rw [if_neg hq]
    have hq2 : 0 < q := lt_of_not_le hq
    cases hm : dictGet b.qty p with
    | some w =>
      have hms : (dictGet b.qty p).isSome = true := by rw [hm]; rfl
      have hpmem : p ∈ b.prices := (hb.mem_iff p).mpr hms
      rw [if_pos ((any_toLevels_key b p).mpr hpmem)]
      unfold SideBook.toLevels
      rw [update_level_prices_replace b p q hq2 hms, List.map_map]
      apply List.map_congr_left
      intro x hx
      rw [Function.comp, dictGet_update_level b p q x]
      by_cases hxp : x = p
      · simp [hxp, not_le.mpr hq2]
      · simp [hxp]
    | none =>
      have hpm : p ∉ b.prices := by
        rw [hb.mem_iff p, hm]; simp
      rw [if_neg (by
        intro h
        exact hpm ((any_toLevels_key b p).mp h))]
      unfold SideBook.toLevels
      rw [update_level_prices_insert b p q hq2 hm]
      have hfun : (fun x => ((x : ℚ), (dictGet (b.update_level p q).qty x).getD 0))
          = fun x => (x, if x = p then q else (dictGet b.qty x).getD 0) := by
        funext x
        rw [dictGet_update_level b p q x]
        by_cases hxp : x = p
        · simp [hxp, not_le.mpr hq2]
        · simp [hxp]
      rw [hfun]
      exact map_insSorted_levels b.is_ask p q _ b.prices hpm

/-! ### Batches of upserts -/

theorem applyLevels_is_ask (b : SideBook) (L : List (ℚ × ℚ)) :
    (applyLevels b L).is_ask = b.is_ask := by
  induction L generalizing b with
  | nil => rfl
  | cons e t ih =>
    have h2 := ih (b.update_level e.1 e.2)
    rw [update_level_is_ask] at h2
    exact h2

theorem sideInv_applyLevels (b : SideBook) (hb : SideInv b) (L : List (ℚ × ℚ)) :
    SideInv (applyLevels b L) := by
  induction L generalizing b with
  | nil => exact hb
  | cons e t ih =>
    exact ih (b.update_level e.1 e.2) (hb.update_level b e.1 e.2)

/-! ### The crossing loop against the observable levels -/

theorem tol_pos : (0 : ℚ) < tol := by norm_num [tol]

theorem crossLoop_succ_nil (m : ℚ → Bool) (fuel : Nat) (sb : SideBook) (q : ℚ)
    (hp : sb.prices = []) : crossLoop m (fuel + 1) sb q = (sb, q) := by
  rw [crossLoop, hp]

theorem crossLoop_succ_cons (m : ℚ → Bool) (fuel : Nat) (sb : SideBook)
    (q p : ℚ) (rest : List ℚ) (hp : sb.prices = p :: rest) :
    crossLoop m (fuel + 1) sb q =
      if m p = true ∧ tol < q then
        crossLoop m fuel
          (if dictMem (sb.update_level p ((dictGet sb.qty p).getD 0
                - min ((dictGet sb.qty p).getD 0) q)).qty p = true ∧
              (dictGet (sb.update_level p ((dictGet sb.qty p).getD 0
                - min ((dictGet sb.qty p).getD 0) q)).qty p).getD 0 ≤ tol
           then (sb.update_level p ((dictGet sb.qty p).getD 0
                - min ((dictGet sb.qty p).getD 0) q)).update_level p 0
           else sb.update_level p ((dictGet sb.qty p).getD 0
                - min ((dictGet sb.qty p).getD 0) q))
          (q - min ((dictGet sb.qty p).getD 0) q)
      else (sb, q) := by
  rw [crossLoop, hp]

theorem crossLoop_done (m : ℚ → Bool) (fuel : Nat) (sb : SideBook) (q : ℚ)
    (hq : q ≤ tol) : crossLoop m fuel sb q = (sb, q) := by
  cases fuel with
  | zero => rfl
  | succ fuel =>
    cases hp : sb.prices with
    | nil => exact crossLoop_succ_nil m fuel sb q hp
    | cons p rest =>
      rw [crossLoop_succ_cons m fuel sb q p rest hp]
      rw [if_neg (fun h => absurd h.2 (not_lt.mpr hq))]

/-- From the spec's crossing sentence, on the observable levels of the
opposite side: while a best level exists, is marketable and the remaining
quantity exceeds the tolerance, take `min(level, remaining)` off the best
level, deleting it when its remainder is at or below the tolerance.  When
the remainder stays above the tolerance, the step took the whole remaining
quantity, so the loop stops with the reduced level in place. -/
def specCross (marketable : ℚ → Bool) : List (ℚ × ℚ) → ℚ → List (ℚ × ℚ) × ℚ
  | [], q => ([], q)
  | e :: rest, q =>
    if marketable e.1 = true ∧ tol < q then
      if e.2 - min e.2 q ≤ tol then specCross marketable rest (q - min e.2 q)
      else ((e.1, e.2 - min e.2 q) :: rest, q - min e.2 q)
    else (e :: rest, q)

theorem specCross_cons (m : ℚ → Bool) (a b : ℚ) (rest : List (ℚ × ℚ)) (q : ℚ) :
    specCross m ((a, b) :: rest) q =
      if m a = true ∧ tol < q then
        if b - min b q ≤ tol then specCross m rest (q - min b q)
        else ((a, b - min b q) :: rest, q - min b q)
      else ((a, b) :: rest, q) := by
  rw [specCross]

theorem filter_ne_cons_self (p : ℚ) (rest : List ℚ) (hpr : p ∉ rest) :
    (p :: rest).filter (fun y => decide (y ≠ p)) = rest := by
  rw [List.filter_cons]
  have h1 : (decide (p ≠ p)) = false := by simp
  rw [h1]
  simp only [Bool.false_eq_true, if_false]
  exact List.filter_eq_self.mpr (fun a ha => by
    simp only [ne_eq, decide_eq_true_eq]
    exact fun h => hpr (h ▸ ha))

theorem crossLoop_spec (m : ℚ → Bool) : ∀ (fuel : Nat) (sb : SideBook) (q : ℚ),
    SideInv sb → sb.prices.length < fuel →
    (crossLoop m fuel sb q).1.toLevels = (specCross m sb.toLevels q).1 ∧
    (crossLoop m fuel sb q).2 = (specCross m sb.toLevels q).2 ∧
    SideInv (crossLoop m fuel sb q).1 ∧
    (crossLoop m fuel sb q).1.is_ask = sb.is_ask := by
  intro fuel
  induction fuel with
  | zero =>
    intro sb q hb hfuel
    exact absurd hfuel (Nat.not_lt_zero _)
  | succ fuel ih =>
    intro sb q hb hfuel
    cases hp : sb.prices with
    | nil =>
      have hl : sb.toLevels = [] := by rw [SideBook.toLevels, hp]; rfl
      rw [crossLoop_succ_nil m fuel sb q hp, hl, specCross]
      exact ⟨rfl, rfl, hb, rfl⟩
    | cons p rest =>
      have hl : sb.toLevels
          = (p, (dictGet sb.qty p).getD 0)
            :: rest.map (fun x => (x, (dictGet sb.qty x).getD 0)) := by
        rw [SideBook.toLevels, hp, List.map_cons]
      set lq : ℚ := (dictGet sb.qty p).getD 0 with hlq
      have hpmem : p ∈ sb.prices := by rw [hp]; exact List.mem_cons_self p rest
      have hsome : dictGet sb.qty p = some lq := dictGet_eq_some_getD sb hb p hpmem
      have hppr : p ∉ rest := by
        have := hb.nodup sb
        rw [hp] at this
        exact (List.nodup_cons.mp this).1
      have hrest : ∀ x ∈ rest, x ∈ sb.prices := by
        intro x hx
        rw [hp]
        exact List.mem_cons_of_mem p hx
      have hrestne : ∀ x ∈ rest, ¬ x = p := by
        intro x hx hxp
        exact hppr (hxp ▸ hx)
      rw [crossLoop_succ_cons m fuel sb q p rest hp, hl, specCross_cons]
      by_cases hguard : m p = true ∧ tol < q
      · rw [if_pos hguard, if_pos hguard]
        set take : ℚ := min lq q with htake
        set sb1 : SideBook := sb.update_level p (lq - take) with hsb1
        have hinv1 : SideInv sb1 := hb.update_level sb p (lq - take)
        have hask1 : sb1.is_ask = sb.is_ask := update_level_is_ask sb p (lq - take)
        have hget1 : ∀ x, dictGet sb1.qty x
            = if x = p then (if lq - take ≤ 0 then none else some (lq - take))
              else dictGet sb.qty x := fun x => dictGet_update_level sb p (lq - take) x
        have hfuel2 : rest.length < fuel := by
          have : sb.prices.length = rest.length + 1 := by rw [hp]; rfl
          rw [this] at hfuel
          exact Nat.lt_of_succ_lt_succ hfuel
        by_cases hsmall : lq - take ≤ tol
        · rw [if_pos hsmall]
          -- the level is consumed (or cleaned up): the loop continues on `rest`
          have hres : ∃ sb2, (if dictMem sb1.qty p = true ∧ (dictGet sb1.qty p).getD 0 ≤ tol
                then sb1.update_level p 0 else sb1) = sb2
              ∧ sb2.prices = rest
              ∧ (∀ x, x ≠ p → dictGet sb2.qty x = dictGet sb.qty x)
              ∧ SideInv sb2 ∧ sb2.is_ask = sb.is_ask := by
            by_cases hzero : lq - take ≤ 0
            · refine ⟨sb1, ?_, ?_, ?_, hinv1, hask1⟩
              · have hnone : dictGet sb1.qty p = none := by
                  rw [hget1 p, if_pos rfl, if_pos hzero]
                have hmem1 : dictMem sb1.qty p = false := (dictGet_none_iff _ _).mp hnone
                rw [if_neg (fun h => by rw [hmem1] at h; exact absurd h.1 (by simp))]
              · rw [hsb1, update_level_prices_remove sb p (lq - take) hzero
                  (by rw [hsome]; rfl) (hb.nodup sb), hp]
                exact filter_ne_cons_self p rest hppr
              · intro x hxp
                rw [hget1 x, if_neg hxp]
            · have hpos : 0 < lq - take := lt_of_not_le hzero
              have hsome1 : dictGet sb1.qty p = some (lq - take) := by
                rw [hget1 p, if_pos rfl, if_neg hzero]
              have hmem1 : dictMem sb1.qty p = true := by
                rw [← dictGet_isSome, hsome1]; rfl
              have hcond : dictMem sb1.qty p = true ∧ (dictGet sb1.qty p).getD 0 ≤ tol := by
                refine ⟨hmem1, ?_⟩
                rw [hsome1]
                simpa using hsmall
              rw [if_pos hcond]
              set sb2 : SideBook := sb1.update_level p 0 with hsb2
              have hget2 : ∀ x, dictGet sb2.qty x
                  = if x = p then none else dictGet sb1.qty x := by
                intro x
                rw [hsb2, dictGet_update_level sb1 p 0 x]
                by_cases hxp : x = p <;> simp [hxp]
              refine ⟨sb2, rfl, ?_, ?_, hinv1.update_level sb1 p 0, ?_⟩
              · rw [hsb2, update_level_prices_remove sb1 p 0 le_rfl
                  (by rw [hsome1]; rfl) (hinv1.nodup sb1)]
                have hpr1 : sb1.prices = sb.prices :=
                  update_level_prices_replace sb p (lq - take) hpos (by rw [hsome]; rfl)
                rw [hpr1, hp]
                exact filter_ne_cons_self p rest hppr
              · intro x hxp
                rw [hget2 x, if_neg hxp, hget1 x, if_neg hxp]
              · rw [hsb2, update_level_is_ask, hask1]

          obtain ⟨sb2, hif, hpr2, hgets2, hinv2, hask2⟩ := hres
          rw [hif]
          have hl2 : sb2.toLevels = rest.map (fun x => (x, (dictGet sb.qty x).getD 0)) := by
            rw [SideBook.toLevels, hpr2]
            have hcong : ∀ x ∈ rest, ((x : ℚ), (dictGet sb2.qty x).getD 0)
                = (x, (dictGet sb.qty x).getD 0) := by
              intro x hx
              rw [hgets2 x (hrestne x hx)]
            exact List.map_congr_left (fun x hx => hcong x hx)
          have hih := ih sb2 (q - take) hinv2 (by rw [hpr2]; exact hfuel2)
          rw [hl2] at hih
          refine ⟨hih.1, hih.2.1, hih.2.2.1, hih.2.2.2.trans hask2⟩
        · rw [if_neg hsmall]
          -- remainder above tolerance: the whole remaining quantity was taken
          have hpos : 0 < lq - take := lt_trans tol_pos (lt_of_not_le hsmall)
          have hsome1 : dictGet sb1.qty p = some (lq - take) := by
            rw [hget1 p, if_pos rfl, if_neg (not_le.mpr hpos)]
          have hcondF : ¬ (dictMem sb1.qty p = true ∧ (dictGet sb1.qty p).getD 0 ≤ tol) := by
            intro h
            have h2 := h.2
            rw [hsome1] at h2
            simp only [Option.getD_some] at h2
            exact hsmall h2
          rw [if_neg hcondF]
          have htq : take = q := by
            rcases min_cases lq q with ⟨h1, h2⟩ | ⟨h1, h2⟩
            · exfalso
              rw [htake, h1] at hpos
              simp at hpos
            · rw [htake, h1]
          have hdone : q - take ≤ tol := by
            rw [htq]
            simp [le_of_lt tol_pos]
          rw [crossLoop_done m fuel sb1 (q - take) hdone]
          have hpr1 : sb1.prices = sb.prices :=
            update_level_prices_replace sb p (lq - take) hpos (by rw [hsome]; rfl)
          have hl1 : sb1.toLevels
              = (p, lq - take) :: rest.map (fun x => (x, (dictGet sb.qty x).getD 0)) := by
            rw [SideBook.toLevels, hpr1, hp, List.map_cons, hsome1]
            have hcong : ∀ x ∈ rest, ((x : ℚ), (dictGet sb1.qty x).getD 0)
                = (x, (dictGet sb.qty x).getD 0) := by
              intro x hx
              rw [hget1 x, if_neg (hrestne x hx)]
            rw [List.map_congr_left (fun x hx => hcong x hx)]
            rfl
          exact ⟨hl1, rfl, hinv1, hask1⟩
      · rw [if_neg hguard, if_neg hguard]
        exact ⟨hl, rfl, hb, rfl⟩

/-! ### Residual resting: accumulate at the limit price -/

/-- From the spec's words: a residual quantity is added at the limit price,
accumulating with whatever already rests there (it does not overwrite); a
fresh price goes to its sorted position. -/
def specAccum (isAsk : Bool) (p q : ℚ) : List (ℚ × ℚ) → List (ℚ × ℚ)
  | [] => [(p, q)]
  | e :: t =>
    if e.1 = p then (p, e.2 + q) :: t
    else if keyLE isAsk p e.1 then (p, q) :: e :: t
    else e :: specAccum isAsk p q t

theorem dictMem_eq_any (d : List (ℚ × ℚ)) (k : ℚ) :
    dictMem d k = d.any (fun e => decide (e.1 = k)) := by
  induction d with
  | nil => rfl
  | cons e t ih => rw [dictMem, List.any_cons, ih]

theorem dictGet_map_self (g : ℚ → ℚ) (l : List ℚ) (p : ℚ) :
    dictGet (l.map (fun x => (x, g x))) p = if p ∈ l then some (g p) else none := by
  induction l with
  | nil => simp [dictGet]
  | cons h t ih =>
    by_cases hhp : h = p
    · subst hhp
      simp [dictGet]
    · rw [List.map_cons, dictGet, if_neg hhp, ih]
      by_cases hpt : p ∈ t
      · rw [if_pos hpt, if_pos (List.mem_cons_of_mem h hpt)]
      · rw [if_neg hpt, if_neg (fun hc => by
          rcases List.mem_cons.mp hc with h1 | h1
          · exact hhp h1.symm
          · exact hpt h1)]

theorem specUpsert_accum (isAsk : Bool) (p q : ℚ) (L : List (ℚ × ℚ))
    (hq : 0 < q) (hpos : ∀ e ∈ L, 0 < e.2)
    (hsorted : L.Pairwise (fun a b => sideRel isAsk a.1 b.1)) :
    specUpsert isAsk p ((dictGet L p).getD 0 + q) L = specAccum isAsk p q L := by
  induction L with
  | nil =>
    simp only [dictGet, Option.getD_none, zero_add]
    rw [specUpsert, if_neg (not_le.mpr hq)]
    simp only [List.any_nil, Bool.false_eq_true, if_false]
    rfl
  | cons e t ih =>
    rcases List.pairwise_cons.mp hsorted with ⟨hhead, htail⟩
    have hposT : ∀ x ∈ t, (0 : ℚ) < x.2 := fun x hx => hpos x (List.mem_cons_of_mem e hx)
    by_cases hep : e.1 = p
    · have hold : dictGet (e :: t) p = some e.2 := by rw [dictGet, if_pos hep]
      have hpose : 0 < e.2 := hpos e (List.mem_cons_self e t)
      have hsum : 0 < e.2 + q := add_pos hpose hq
      rw [hold]
      simp only [Option.getD_some]
      rw [specUpsert, if_neg (not_le.mpr hsum),
        if_pos (by simp [List.any_cons, hep])]
      rw [specAccum, if_pos hep]
      rw [List.map_cons, if_pos hep]
      have htid : t.map (fun x => if x.1 = p then (p, e.2 + q) else x) = t := by
        have hcong : ∀ x ∈ t, (if x.1 = p then ((p : ℚ), e.2 + q) else x) = x := by
          intro x hx
          have hrel := hhead x hx
          rw [hep] at hrel
          have hxp : ¬ x.1 = p := fun hh => sideRel_ne isAsk p x.1 hrel hh.symm
          rw [if_neg hxp]
        rw [List.map_congr_left hcong]
        exact List.map_id' t
      rw [htid]
    · have hold : dictGet (e :: t) p = dictGet t p := by rw [dictGet, if_neg hep]
      rw [hold]
      by_cases hmem : t.any (fun x => decide (x.1 = p)) = true
      · have hex : ∃ x, x ∈ t ∧ x.1 = p := by
          rw [List.any_eq_true] at hmem
          obtain ⟨x, hx, hxp⟩ := hmem
          exact ⟨x, hx, of_decide_eq_true hxp⟩
        obtain ⟨w, hw, hwp⟩ := hex
        have hkey : sideRel isAsk e.1 p := by
          have := hhead w hw
          rwa [hwp] at this
        have hkle : keyLE isAsk p e.1 = false := by
          cases isAsk with
          | true =>
            have h2 : ¬ (p ≤ e.1) := not_le.mpr (by simpa [sideRel] using hkey)
            simp [keyLE, h2]
          | false =>
            have h2 : ¬ (e.1 ≤ p) := not_le.mpr (by simpa [sideRel] using hkey)
            simp [keyLE, h2]
        have holdpos : 0 < (dictGet t p).getD 0 + q := by
          have hs : (dictGet t p).isSome = true := by
            rw [dictGet_isSome, dictMem_eq_any]
            exact hmem
          obtain ⟨v, hv⟩ := Option.isSome_iff_exists.mp hs
          have hvpos := hposT (p, v) (dictGet_entry_mem t p v hv)
          rw [hv]
          simp only [Option.getD_some]
          exact add_pos hvpos hq
        rw [specUpsert, if_neg (not_le.mpr holdpos),
          if_pos (by simp [List.any_cons, hmem])]
        rw [specAccum, if_neg hep,
          if_neg (by rw [hkle]; exact fun h => absurd h (by simp))]
        rw [List.map_cons, if_neg hep]
        have hiht := ih hposT htail
        rw [specUpsert, if_neg (not_le.mpr holdpos), if_pos hmem] at hiht
        rw [hiht]
      · have hanyFt : (t.any fun x => decide (x.1 = p)) = false := by
          cases hh : t.any fun x => decide (x.1 = p)
          · rfl
          · exact absurd hh hmem
        have hnone : dictGet t p = none := by
          rw [dictGet_none_iff, dictMem_eq_any]
          exact hanyFt
        have hanyF : ((e :: t).any fun x => decide (x.1 = p)) = false := by
          rw [List.any_cons, hanyFt]
          simp [hep]
        rw [hnone]
        simp only [Option.getD_none, zero_add]
        rw [specUpsert, if_neg (not_le.mpr hq),
          if_neg (by rw [hanyF]; exact fun h => absurd h (by simp))]
        rw [insLevelSorted]
        rw [specAccum, if_neg hep]
        by_cases hkle : keyLE isAsk p e.1
        · rw [if_pos hkle, if_pos hkle]
        · rw [if_neg hkle, if_neg hkle]
          have hiht := ih hposT htail
          rw [hnone] at hiht
          simp only [Option.getD_none, zero_add] at hiht
          rw [specUpsert, if_neg (not_le.mpr hq),
            if_neg (by rw [hanyFt]; exact fun h => absurd h (by simp))] at hiht
          rw [hiht]

theorem update_level_accum (b : SideBook) (hb : SideInv b) (p q : ℚ) (hq : 0 < q) :
    (b.update_level p ((dictGet b.qty p).getD 0 + q)).toLevels
      = specAccum b.is_ask p q b.toLevels := by
  rw [update_level_toLevels b hb p _]
  have hgd : (dictGet b.toLevels p).getD 0 = (dictGet b.qty p).getD 0 := by
    rw [SideBook.toLevels, dictGet_map_self]
    by_cases hpm : p ∈ b.prices
    · rw [if_pos hpm]
      rfl
    · rw [if_neg hpm]
      have hnone : dictGet b.qty p = none := by
        rw [dictGet_none_iff]
        cases hmm : dictMem b.qty p
        · rfl
        · exact absurd ((hb.mem_iff p).mpr
            (by rw [dictGet_isSome]; exact hmm)) hpm
      rw [hnone]
  rw [← hgd]
  apply specUpsert_accum b.is_ask p q b.toLevels hq
  · intro e he
    obtain ⟨x, hx, hxe⟩ := List.mem_map.mp he
    rw [← hxe]
    exact getD_pos_of_mem b hb x hx
  · rw [SideBook.toLevels]
    rw [List.pairwise_map]
    exact hb.sorted

/-! ### The book invariant and the shape of `place_limit_order` -/

/-- The whole-book invariant: both sides satisfy the side invariant and
carry their proper orientation flags. -/
structure BookInv (ob : OrderBook) : Prop where
  bidInv : SideInv ob.bids
  askInv : SideInv ob.asks
  bidSide : ob.bids.is_ask = false
  askSide : ob.asks.is_ask = true

theorem bookInv_empty : BookInv OrderBook.empty :=
  ⟨SideInv.emptySide false, SideInv.emptySide true, rfl, rfl⟩

theorem bookInv_apply_snapshot (ob : OrderBook) (B A : List (ℚ × ℚ)) :
    BookInv (ob.apply_snapshot B A) :=
  ⟨sideInv_applyLevels _ (SideInv.emptySide false) B,
   sideInv_applyLevels _ (SideInv.emptySide true) A,
   (applyLevels_is_ask _ B).trans rfl,
   (applyLevels_is_ask _ A).trans rfl⟩

theorem bookInv_apply_diff (ob : OrderBook) (hb : BookInv ob)
    (B A : List (ℚ × ℚ)) : BookInv (ob.apply_diff B A) :=
  ⟨sideInv_applyLevels _ hb.bidInv B,
   sideInv_applyLevels _ hb.askInv A,
   (applyLevels_is_ask _ B).trans hb.bidSide,
   (applyLevels_is_ask _ A).trans hb.askSide⟩

/-- The book produced by the buy branch of `place_limit_order`. -/
def buyResult (ob : OrderBook) (P Q : ℚ) : OrderBook :=
  ⟨if tol < (crossLoop (fun p => decide (p ≤ P)) (ob.asks.prices.length + 1) ob.asks Q).2
    then ob.bids.update_level P ((dictGet ob.bids.qty P).getD 0
      + (crossLoop (fun p => decide (p ≤ P)) (ob.asks.prices.length + 1) ob.asks Q).2)
    else ob.bids,
   (crossLoop (fun p => decide (p ≤ P)) (ob.asks.prices.length + 1) ob.asks Q).1⟩

/-- The book produced by the sell branch of `place_limit_order`. -/
def sellResult (ob : OrderBook) (P Q : ℚ) : OrderBook :=
  ⟨(crossLoop (fun p => decide (P ≤ p)) (ob.bids.prices.length + 1) ob.bids Q).1,
   if tol < (crossLoop (fun p => decide (P ≤ p)) (ob.bids.prices.length + 1) ob.bids Q).2
    then ob.asks.update_level P ((dictGet ob.asks.qty P).getD 0
      + (crossLoop (fun p => decide (P ≤ p)) (ob.bids.prices.length + 1) ob.bids Q).2)
    else ob.asks⟩

theorem place_noop (ob : OrderBook) (side : String) (P Q : ℚ) (hq : Q ≤ 0) :
    ob.place_limit_order side P Q = (ob, Except.ok ob.top10) := by
  simp only [OrderBook.place_limit_order]
  rw [if_pos hq]

theorem place_buy_eq (ob : OrderBook) (side : String) (P Q : ℚ)
    (hq : ¬ Q ≤ 0) (hs : strLower side = "buy" ∨ strLower side = "bid") :
    ob.place_limit_order side P Q
      = (buyResult ob P Q, Except.ok (buyResult ob P Q).top10) := by
  simp only [OrderBook.place_limit_order]
  rw [if_neg hq, if_pos hs]
  rfl

theorem place_sell_eq (ob : OrderBook) (side : String) (P Q : ℚ)
    (hq : ¬ Q ≤ 0) (hs1 : ¬ (strLower side = "buy" ∨ strLower side = "bid"))
    (hs2 : strLower side = "sell" ∨ strLower side = "ask") :
    ob.place_limit_order side P Q
      = (sellResult ob P Q, Except.ok (sellResult ob P Q).top10) := by
  simp only [OrderBook.place_limit_order]
  rw [if_neg hq, if_neg hs1, if_pos hs2]
  rfl

theorem place_invalid_eq (ob : OrderBook) (side : String) (P Q : ℚ)
    (hq : ¬ Q ≤ 0) (hs1 : ¬ (strLower side = "buy" ∨ strLower side = "bid"))
    (hs2 : ¬ (strLower side = "sell" ∨ strLower side = "ask")) :
    ob.place_limit_order side P Q
      = (ob, Except.error "side must be buy/bid or sell/ask") := by
  simp only [OrderBook.place_limit_order]
  rw [if_neg hq, if_neg hs1, if_neg hs2]

theorem place_buy_toLevels (ob : OrderBook) (hb : BookInv ob) (side : String)
    (hs : strLower side = "buy" ∨ strLower side = "bid") (P Q : ℚ) (hQ : tol < Q) :
    (ob.place_limit_order side P Q).1.asks.toLevels
        = (specCross (fun p => decide (p ≤ P)) ob.asks.toLevels Q).1
    ∧ (ob.place_limit_order side P Q).1.bids.toLevels
        = (if tol < (specCross (fun p => decide (p ≤ P)) ob.asks.toLevels Q).2
           then specAccum false P
             ((specCross (fun p => decide (p ≤ P)) ob.asks.toLevels Q).2)
             ob.bids.toLevels
           else ob.bids.toLevels)
    ∧ (ob.place_limit_order side P Q).2
        = Except.ok (ob.place_limit_order side P Q).1.top10 := by
  have hq0 : ¬ Q ≤ 0 := not_le.mpr (lt_trans tol_pos hQ)
  rw [place_buy_eq ob side P Q hq0 hs]
  obtain ⟨hc1, hc2, hc3, hc4⟩ := crossLoop_spec (fun p => decide (p ≤ P))
    (ob.asks.prices.length + 1) ob.asks Q hb.askInv (Nat.lt_succ_self _)
  refine ⟨?_, ?_, rfl⟩
  · exact hc1
  · simp only [buyResult]
    rw [hc2]
    by_cases hrem : tol < (specCross (fun p => decide (p ≤ P)) ob.asks.toLevels Q).2
    · rw [if_pos hrem, if_pos hrem]
      have hacc := update_level_accum ob.bids hb.bidInv P
        ((specCross (fun p => decide (p ≤ P)) ob.asks.toLevels Q).2)
        (lt_trans tol_pos hrem)
      rw [hb.bidSide] at hacc
      exact hacc
    · rw [if_neg hrem, if_neg hrem]

theorem place_sell_toLevels (ob : OrderBook) (hb : BookInv ob) (side : String)
    (hs1 : ¬ (strLower side = "buy" ∨ strLower side = "bid"))
    (hs2 : strLower side = "sell" ∨ strLower side = "ask") (P Q : ℚ) (hQ : tol < Q) :
    (ob.place_limit_order side P Q).1.bids.toLevels
        = (specCross (fun p => decide (P ≤ p)) ob.bids.toLevels Q).1
    ∧ (ob.place_limit_order side P Q).1.asks.toLevels
        = (if tol < (specCross (fun p => decide (P ≤ p)) ob.bids.toLevels Q).2
           then specAccum true P
             ((specCross (fun p => decide (P ≤ p)) ob.bids.toLevels Q).2)
             ob.asks.toLevels
           else ob.asks.toLevels)
    ∧ (ob.place_limit_order side P Q).2
        = Except.ok (ob.place_limit_order side P Q).1.top10 := by
  have hq0 : ¬ Q ≤ 0 := not_le.mpr (lt_trans tol_pos hQ)
  rw [place_sell_eq ob side P Q hq0 hs1 hs2]
  obtain ⟨hc1, hc2, hc3, hc4⟩ := crossLoop_spec (fun p => decide (P ≤ p))
    (ob.bids.prices.length + 1) ob.bids Q hb.bidInv (Nat.lt_succ_self _)
  refine ⟨?_, ?_, rfl⟩
  · exact hc1
  · simp only [sellResult]
    rw [hc2]
    by_cases hrem : tol < (specCross (fun p => decide (P ≤ p)) ob.bids.toLevels Q).2
    · rw [if_pos hrem, if_pos hrem]
      have hacc := update_level_accum ob.asks hb.askInv P
        ((specCross (fun p => decide (P ≤ p)) ob.bids.toLevels Q).2)
        (lt_trans tol_pos hrem)
      rw [hb.askSide] at hacc
      exact hacc
    · rw [if_neg hrem, if_neg hrem]

/-! ### Concrete fixtures from the spec's examples -/

/-- The crossing example's ask side: `{100: 2, 101: 3}`. -/
def exAsks : SideBook := applyLevels (SideBook.emptySide true) [(100, 2), (101, 3)]

/-- The crossing example's book: `asks = {100: 2, 101: 3}`, empty bids. -/
def exBook : OrderBook := ⟨SideBook.emptySide false, exAsks⟩

theorem bookInv_exBook : BookInv exBook :=
  ⟨SideInv.emptySide false,
   sideInv_applyLevels _ (SideInv.emptySide true) [(100, 2), (101, 3)],
   rfl,
   (applyLevels_is_ask _ [(100, 2), (101, 3)]).trans rfl⟩

/-! ### Claim C1 -/

/-- C1 counterexample: on asks={100:2, 101:3} with empty bids, the code's
`simulateLimitOrder(buy, 100.5, 4)` cannot lift the 101 ask (101 > 100.5):
it leaves asks={101:3} and rests 2 at 100.5 on the bids — not asks={101:1}
with empty bids as the claim's example states. -/
theorem c1_counterexample :
    (exBook.place_limit_order "buy" (201/2) 4).1.asks.toLevels = [(101, 3)]
    ∧ (exBook.place_limit_order "buy" (201/2) 4).1.bids.toLevels = [((201:ℚ)/2, 2)]
    ∧ ¬ ((exBook.place_limit_order "buy" (201/2) 4).1.asks.toLevels = [(101, 1)]
          ∧ (exBook.place_limit_order "buy" (201/2) 4).1.bids.toLevels = []) := by
  decide

/-- C1 (amended): for every invariant-satisfying book and quantity above the
tolerance, a buy crosses the ask side exactly as the spec's loop
(`specCross`, taking the best ask while its price is ≤ the limit) and rests
any residual above tolerance on the bid side at the limit price, summed with
what already rests there (`specAccum`); the sell case is symmetric against
bids with condition bid price ≥ limit.  The concrete examples corrected: a
buy at 100.5 for 4 on asks={100:2, 101:3} leaves asks={101:3} and
bids={100.5:2}; a buy at 100.5 for 5 leaves asks={101:3} and
bids={100.5:3}. -/
theorem c1_crossing_algorithm :
    (∀ (ob : OrderBook) (side : String) (P Q : ℚ), BookInv ob →
        (strLower side = "buy" ∨ strLower side = "bid") → tol < Q →
        (ob.place_limit_order side P Q).1.asks.toLevels
            = (specCross (fun p => decide (p ≤ P)) ob.asks.toLevels Q).1
        ∧ (ob.place_limit_order side P Q).1.bids.toLevels
            = (if tol < (specCross (fun p => decide (p ≤ P)) ob.asks.toLevels Q).2
               then specAccum false P
                 ((specCross (fun p => decide (p ≤ P)) ob.asks.toLevels Q).2)
                 ob.bids.toLevels
               else ob.bids.toLevels))
    ∧ (∀ (ob : OrderBook) (side : String) (P Q : ℚ), BookInv ob →
        ¬ (strLower side = "buy" ∨ strLower side = "bid") →
        (strLower side = "sell" ∨ strLower side = "ask") → tol < Q →
        (ob.place_limit_order side P Q).1.bids.toLevels
            = (specCross (fun p => decide (P ≤ p)) ob.bids.toLevels Q).1
        ∧ (ob.place_limit_order side P Q).1.asks.toLevels
            = (if tol < (specCross (fun p => decide (P ≤ p)) ob.bids.toLevels Q).2
               then specAccum true P
                 ((specCross (fun p => decide (P ≤ p)) ob.bids.toLevels Q).2)
                 ob.asks.toLevels
               else ob.asks.toLevels))
    ∧ (exBook.place_limit_order "buy" (201/2) 4).1.asks.toLevels = [(101, 3)]
    ∧ (exBook.place_limit_order "buy" (201/2) 4).1.bids.toLevels = [((201:ℚ)/2, 2)]
    ∧ (exBook.place_limit_order "buy" (201/2) 5).1.asks.toLevels = [(101, 3)]
    ∧ (exBook.place_limit_order "buy" (201/2) 5).1.bids.toLevels = [((201:ℚ)/2, 3)] := by
  refine ⟨?_, ?_, by decide, by decide, by decide, by decide⟩
  · intro ob side P Q hb hs hQ
    obtain ⟨h1, h2, h3⟩ := place_buy_toLevels ob hb side hs P Q hQ
    exact ⟨h1, h2⟩
  · intro ob side P Q hb hs1 hs2 hQ
    obtain ⟨h1, h2, h3⟩ := place_sell_toLevels ob hb side hs1 hs2 P Q hQ
    exact ⟨h1, h2⟩

/-- C1 witness: the buy clause of the crossing theorem applied at the
concrete example book, with its hypotheses discharged there. -/
theorem c1_crossing_algorithm_witness :
    BookInv exBook ∧ tol < (4:ℚ)
    ∧ (strLower "buy" = "buy" ∨ strLower "buy" = "bid")
    ∧ (exBook.place_limit_order "buy" (201/2) 4).1.asks.toLevels
        = (specCross (fun p => decide (p ≤ (201/2 : ℚ))) exBook.asks.toLevels 4).1 := by
  refine ⟨bookInv_exBook, by decide, by decide, ?_⟩
  exact (c1_crossing_algorithm.1 exBook "buy" (201/2) 4 bookInv_exBook
    (by decide) (by decide)).1

/-! ### Claim C2 -/

/-- C2 counterexample: `tol` (the tolerance, `1e-15`) is positive and at or
below itself, yet `update_level(1, tol)` on an empty ask side inserts a
level rather than being the no-op the claim requires, and the side then
holds a level whose quantity is ≤ tolerance. -/
theorem c2_counterexample :
    tol ≤ tol ∧ 0 < tol
    ∧ ((SideBook.emptySide true).update_level 1 tol).prices = [1]
    ∧ dictGet ((SideBook.emptySide true).update_level 1 tol).qty 1 = some tol
    ∧ ¬ ((SideBook.emptySide true).update_level 1 tol = SideBook.emptySide true) := by
  decide

/-- C2 (amended): `update_level` realizes the spec's upsert with threshold
`0`, not the tolerance: a quantity ≤ 0 removes the level if present (no-op
if absent), a positive quantity replaces the entry or inserts the price at
its sorted position; consequently every level existing after an upsert has
strictly positive quantity. -/
theorem c2_upsert_spec (b : SideBook) (p q : ℚ) (hb : SideInv b) :
    (b.update_level p q).toLevels = specUpsert b.is_ask p q b.toLevels
    ∧ ∀ e ∈ (b.update_level p q).toLevels, (0:ℚ) < e.2 := by
  refine ⟨update_level_toLevels b hb p q, ?_⟩
  intro e he
  obtain ⟨x, hx, hxe⟩ := List.mem_map.mp he
  rw [← hxe]
  exact getD_pos_of_mem _ (hb.update_level b p q) x hx

/-- C2 witness: the amended upsert theorem applied at the concrete crossing
example's ask side. -/
theorem c2_upsert_spec_witness :
    SideInv exAsks
    ∧ (exAsks.update_level 100 5).toLevels
        = specUpsert exAsks.is_ask 100 5 exAsks.toLevels
    ∧ (exAsks.update_level 100 5).toLevels = [(100, 5), (101, 3)] := by
  have hinv : SideInv exAsks :=
    sideInv_applyLevels _ (SideInv.emptySide true) [(100, 2), (101, 3)]
  exact ⟨hinv, (c2_upsert_spec exAsks 100 5 hinv).1, by decide⟩

/-! ### Claim C3 -/

/-- C3: after any finite sequence of upserts on an initially empty side, the
price sequence is strictly monotonic in the side's direction and
duplicate-free, the price set coincides with the quantity dict's key set,
and every stored quantity is strictly positive. -/
theorem c3_sort_invariant (isAsk : Bool) (ops : List (ℚ × ℚ)) :
    (applyLevels (SideBook.emptySide isAsk) ops).prices.Pairwise (sideRel isAsk)
    ∧ (applyLevels (SideBook.emptySide isAsk) ops).prices.Nodup
    ∧ (∀ p : ℚ, p ∈ (applyLevels (SideBook.emptySide isAsk) ops).prices
        ↔ (dictGet (applyLevels (SideBook.emptySide isAsk) ops).qty p).isSome = true)
    ∧ (∀ e ∈ (applyLevels (SideBook.emptySide isAsk) ops).qty, (0:ℚ) < e.2) := by
  have hinv := sideInv_applyLevels _ (SideInv.emptySide isAsk) ops
  have hask := applyLevels_is_ask (SideBook.emptySide isAsk) ops
  refine ⟨?_, hinv.nodup _, hinv.mem_iff, hinv.pos⟩
  have hs := hinv.sorted
  rwa [hask] at hs

/-- C3 witness: the invariant theorem instantiated at a concrete upsert
sequence containing an overwrite and a removal. -/
theorem c3_sort_invariant_witness :
    (applyLevels (SideBook.emptySide true) [(101, 2), (100, 1), (101, 5), (100, 0)]).prices.Pairwise
        (sideRel true)
    ∧ (applyLevels (SideBook.emptySide true) [(101, 2), (100, 1), (101, 5), (100, 0)]).prices.Nodup
    ∧ (∀ p : ℚ, p ∈ (applyLevels (SideBook.emptySide true) [(101, 2), (100, 1), (101, 5), (100, 0)]).prices
        ↔ (dictGet (applyLevels (SideBook.emptySide true) [(101, 2), (100, 1), (101, 5), (100, 0)]).qty p).isSome = true)
    ∧ (∀ e ∈ (applyLevels (SideBook.emptySide true) [(101, 2), (100, 1), (101, 5), (100, 0)]).qty, (0:ℚ) < e.2) :=
  c3_sort_invariant true [(101, 2), (100, 1), (101, 5), (100, 0)]

/-! ### Claim C4 -/

theorem take_takeWhile_length (l : List ℚ) (pr : ℚ → Bool) :
    l.take (l.takeWhile pr).length = l.takeWhile pr := by
  induction l with
  | nil => rfl
  | cons h t ih =>
    by_cases hc : pr h <;> simp [List.takeWhile_cons, hc, ih]

theorem foldl_add_sum (g : ℚ → ℚ) (l : List ℚ) :
    ∀ a : ℚ, l.foldl (fun tot x => tot + g x) a = a + (l.map g).sum := by
  induction l with
  | nil => intro a; simp
  | cons h t ih =>
    intro a
    rw [List.foldl_cons, ih (a + g h), List.map_cons, List.sum_cons]
    ring

theorem takeWhile_eq_filter_sorted (pr : ℚ → Bool) (r : ℚ → ℚ → Prop)
    (hcl : ∀ a b, r a b → pr a = false → pr b = false) :
    ∀ l : List ℚ, l.Pairwise r → l.takeWhile pr = l.filter pr := by
  intro l
  induction l with
  | nil => intro _; rfl
  | cons h t ih =>
    intro hl
    rcases List.pairwise_cons.mp hl with ⟨hh, ht⟩
    by_cases hc : pr h
    · simp [List.takeWhile_cons, List.filter_cons, hc, ih ht]
    · have hcf : pr h = false := by
        cases hch : pr h
        · rfl
        · exact absurd hch hc
      have hnil : t.filter pr = [] := by
        rw [List.filter_eq_nil_iff]
        intro a ha
        rw [hcl h a (hh a ha) hcf]
        simp
      simp [List.takeWhile_cons, List.filter_cons, hcf, hnil]

/-- The notional-ahead example's ask side: `{100: 1, 101: 2, 103: 5}`. -/
def exNotionalAsks : SideBook :=
  applyLevels (SideBook.emptySide true) [(100, 1), (101, 2), (103, 5)]

/-- C4: `notional_ahead(t)` sums price×quantity over exactly the levels at
or better than `t` (price ≤ t on asks, price ≥ t on bids), an empty side
gives 0, and the spec's example values 817 and 100 hold. -/
theorem c4_notional_ahead :
    (∀ (b : SideBook) (t : ℚ), SideInv b →
        b.notional_ahead t
          = ((b.toLevels.filter (fun e =>
                if b.is_ask then decide (e.1 ≤ t) else decide (t ≤ e.1))).map
              (fun e => e.1 * e.2)).sum)
    ∧ (∀ (isAsk : Bool) (t : ℚ), (SideBook.emptySide isAsk).notional_ahead t = 0)
    ∧ exNotionalAsks.notional_ahead 103 = 817
    ∧ exNotionalAsks.notional_ahead (201/2) = 100 := by
  refine ⟨?_, ?_, by decide, by decide⟩
  swap
  · intro isAsk t
    rfl
  intro b t hb
  unfold SideBook.notional_ahead
  by_cases hpr : b.prices = []
  · rw [if_pos hpr]
    have h0 : b.toLevels = [] := by rw [SideBook.toLevels, hpr]; rfl
    rw [h0]
    rfl
  rw [if_neg hpr]
  by_cases hask : b.is_ask = true
  · simp only [hask, if_true]
    have hsorted : b.prices.Pairwise (fun a b => a < b) := by
      have hs := hb.sorted
      rw [hask] at hs
      exact hs
    have htf : b.prices.takeWhile (fun p => decide (p ≤ t))
        = b.prices.filter (fun p => decide (p ≤ t)) :=
      takeWhile_eq_filter_sorted _ _ (fun a c hac haf => by
        have hta : ¬ a ≤ t := by
          intro hc
          rw [decide_eq_true hc] at haf
          exact Bool.true_eq_false.mp haf
        exact decide_eq_false (fun hct => hta (le_of_lt (lt_of_lt_of_le hac hct))))
        b.prices hsorted
    have hrhs : ((b.toLevels.filter (fun e => decide (e.1 ≤ t))).map
            (fun e => e.1 * e.2)).sum
        = ((b.prices.filter (fun p => decide (p ≤ t))).map
            (fun x => x * (dictGet b.qty x).getD 0)).sum := by
      rw [SideBook.toLevels, List.filter_map, List.map_map]
      rfl
    rw [hrhs]
    by_cases hr : bisectRight b.prices t = 0
    · rw [if_pos hr]
      have hnil : b.prices.filter (fun p => decide (p ≤ t)) = [] := by
        rw [← htf]
        unfold bisectRight at hr
        exact List.length_eq_zero.mp hr
      rw [hnil]
      rfl
    · rw [if_neg hr]
      unfold bisectRight
      rw [take_takeWhile_length, htf, foldl_add_sum, zero_add]
  · have haskf : b.is_ask = false := by
      cases hh : b.is_ask
      · rfl
      · exact absurd hh hask
    simp only [haskf, Bool.false_eq_true, if_false]
    have hsorted : b.prices.Pairwise (fun a b => b < a) := by
      have hs := hb.sorted
      rw [haskf] at hs
      exact hs
    have htf : b.prices.takeWhile (fun p => decide (t ≤ p))
        = b.prices.filter (fun p => decide (t ≤ p)) :=
      takeWhile_eq_filter_sorted _ _ (fun a c hac haf => by
        have hta : ¬ t ≤ a := by
          intro hc
          rw [decide_eq_true hc] at haf
          exact Bool.true_eq_false.mp haf
        exact decide_eq_false (fun hct => hta (le_of_lt (lt_of_le_of_lt hct hac))))
        b.prices hsorted
    have hrhs : ((b.toLevels.filter (fun e => decide (t ≤ e.1))).map
            (fun e => e.1 * e.2)).sum
        = ((b.prices.filter (fun p => decide (t ≤ p))).map
            (fun x => x * (dictGet b.qty x).getD 0)).sum := by
      rw [SideBook.toLevels, List.filter_map, List.map_map]
      rfl
    rw [hrhs, htf, foldl_add_sum, zero_add]

/-- C4 witness: the general clause applied at the concrete notional example
side with threshold 103, its invariant hypothesis discharged. -/
theorem c4_notional_ahead_witness :
    SideInv exNotionalAsks
    ∧ exNotionalAsks.notional_ahead 103
        = ((exNotionalAsks.toLevels.filter (fun e =>
              if exNotionalAsks.is_ask then decide (e.1 ≤ (103:ℚ))
              else decide ((103:ℚ) ≤ e.1))).map (fun e => e.1 * e.2)).sum := by
  have hinv : SideInv exNotionalAsks :=
    sideInv_applyLevels _ (SideInv.emptySide true) [(100, 1), (101, 2), (103, 5)]
  exact ⟨hinv, c4_notional_ahead.1 exNotionalAsks 103 hinv⟩

/-! ### Claim C5: snapshot-then-diff versus merged snapshot -/

/-- The last-write-wins meaning of one batch entry: a quantity at or below
zero clears the value, a positive one stores it. -/
def semStep (p : ℚ) (acc : ℚ) (e : ℚ × ℚ) : ℚ :=
  if e.1 = p then (if e.2 ≤ 0 then 0 else e.2) else acc

/-- The quantity a batch leaves at price `p` when applied entry by entry to
an empty side: the last entry for `p` wins, zero meaning no level. -/
def semGet (L : List (ℚ × ℚ)) (p : ℚ) : ℚ :=
  L.foldl (semStep p) 0

/-- From the claim's words: one diff entry merged into a snapshot batch — a
quantity ≤ 0 removes the snapshot's entry at that price, otherwise the
entry replaces it (or is appended when fresh); all other entries are kept
unchanged. -/
def mergeStep (acc : List (ℚ × ℚ)) (e : ℚ × ℚ) : List (ℚ × ℚ) :=
  if e.2 ≤ 0 then acc.filter (fun x => decide (x.1 ≠ e.1))
  else if acc.any (fun x => decide (x.1 = e.1)) then
    acc.map (fun x => if x.1 = e.1 then e else x)
  else acc ++ [e]

/-- From the claim's words: the level-by-level merge of a snapshot batch
with a diff batch. -/
def mergeLevels (S D : List (ℚ × ℚ)) : List (ℚ × ℚ) :=
  D.foldl mergeStep S

theorem semFold_no_key (p : ℚ) :
    ∀ (L : List (ℚ × ℚ)), (∀ x ∈ L, ¬ x.1 = p) →
      ∀ a : ℚ, L.foldl (semStep p) a = a := by
  intro L
  induction L with
  | nil => intro _ a; rfl
  | cons y t ih =>
    intro hk a
    rw [List.foldl_cons, semStep, if_neg (hk y (List.mem_cons_self y t))]
    exact ih (fun x hx => hk x (List.mem_cons_of_mem y hx)) a

theorem semFold_filter_self (p : ℚ) :
    ∀ (L : List (ℚ × ℚ)) (a : ℚ),
      (L.filter (fun x => decide (x.1 ≠ p))).foldl (semStep p) a = a := by
  intro L
  induction L with
  | nil => intro a; rfl
  | cons y t ih =>
    intro a
    by_cases hy : y.1 = p
    · rw [List.filter_cons, if_neg (by simp [hy])]
      exact ih a
    · rw [List.filter_cons, if_pos (by simp [hy]), List.foldl_cons,
        semStep, if_neg hy]
      exact ih a

theorem semFold_filter_ne (k p : ℚ) (hpk : ¬ p = k) :
    ∀ (L : List (ℚ × ℚ)) (a : ℚ),
      (L.filter (fun x => decide (x.1 ≠ k))).foldl (semStep p) a
        = L.foldl (semStep p) a := by
  intro L
  induction L with
  | nil => intro a; rfl
  | cons y t ih =>
    intro a
    by_cases hy : y.1 = k
    · have hyp2 : ¬ y.1 = p := fun hyp => hpk (hyp.symm.trans hy)
      rw [List.filter_cons, if_neg (by simp [hy]), List.foldl_cons,
        semStep, if_neg hyp2]
      exact ih a
    · rw [List.filter_cons, if_pos (by simp [hy]), List.foldl_cons,
        List.foldl_cons]
      exact ih (semStep p a y)

theorem semFold_map_replace_other (k p : ℚ) (enew : ℚ × ℚ)
    (hk : enew.1 = k) (hpk : ¬ p = k) :
    ∀ (L : List (ℚ × ℚ)) (a : ℚ),
      (L.map (fun x => if x.1 = k then enew else x)).foldl (semStep p) a
        = L.foldl (semStep p) a := by
  intro L
  induction L with
  | nil => intro a; rfl
  | cons y t ih =>
    intro a
    rw [List.map_cons, List.foldl_cons, List.foldl_cons]
    by_cases hy : y.1 = k
    · rw [if_pos hy]
      have h1 : semStep p a enew = a := by
        rw [semStep, if_neg (fun h => hpk (h.symm.trans hk))]
      have h2 : semStep p a y = a := by
        rw [semStep, if_neg (fun h => hpk (h.symm.trans hy))]
      rw [h1, h2]
      exact ih a
    · rw [if_neg hy]
      exact ih (semStep p a y)

theorem semFold_map_replace_self (k : ℚ) (enew : ℚ × ℚ) (hk : enew.1 = k) :
    ∀ (L : List (ℚ × ℚ)), (L.any (fun x => decide (x.1 = k)) = true) →
      ∀ a : ℚ,
      (L.map (fun x => if x.1 = k then enew else x)).foldl (semStep k) a
        = (if enew.2 ≤ 0 then 0 else enew.2) := by
  intro L
  induction L with
  | nil => intro h; simp at h
  | cons y t ih =>
    intro hany a
    rw [List.map_cons, List.foldl_cons]
    by_cases hy : y.1 = k
    · rw [if_pos hy]
      have hstep : semStep k a enew = (if enew.2 ≤ 0 then 0 else enew.2) := by
        rw [semStep, if_pos hk]
      by_cases ht : t.any (fun x => decide (x.1 = k)) = true
      · rw [ih ht]
      · have hkeys : ∀ x ∈ t.map (fun x => if x.1 = k then enew else x), ¬ x.1 = k := by
          intro x hx
          obtain ⟨y2, hy2, hy2e⟩ := List.mem_map.mp hx
          have hy2k : ¬ y2.1 = k := by
            intro hc
            exact ht (List.any_eq_true.mpr ⟨y2, hy2, by simp [hc]⟩)
          rw [← hy2e, if_neg hy2k]
          exact hy2k
        rw [semFold_no_key k _ hkeys, hstep]
    · rw [if_neg hy]
      have ht : t.any (fun x => decide (x.1 = k)) = true := by
        rcases List.any_eq_true.mp hany with ⟨y2, hy2, hy2k⟩
        rcases List.mem_cons.mp hy2 with h1 | h1
        · exact absurd (of_decide_eq_true hy2k) (h1 ▸ hy)
        · exact List.any_eq_true.mpr ⟨y2, h1, hy2k⟩
      exact ih ht _

theorem semGet_mergeStep (acc : List (ℚ × ℚ)) (e : ℚ × ℚ) (p : ℚ) :
    semGet (mergeStep acc e) p = semStep p (semGet acc p) e := by
  unfold mergeStep
  by_cases hv : e.2 ≤ 0
  · rw [if_pos hv]
    by_cases hep : e.1 = p
    · rw [semStep, if_pos hep, if_pos hv]
      rw [semGet]
      rw [show (fun x => decide ((x : ℚ × ℚ).1 ≠ e.1))
          = fun x => decide (x.1 ≠ p) from by rw [hep]]
      exact semFold_filter_self p acc 0
    · rw [semStep, if_neg hep, semGet, semGet]
      exact semFold_filter_ne e.1 p (fun h => hep (h.symm)) acc 0
  · rw [if_neg hv]
    by_cases hmem : acc.any (fun x => decide (x.1 = e.1)) = true
    · rw [if_pos hmem]
      by_cases hep : e.1 = p
      · rw [semStep, if_pos hep, if_neg hv, semGet]
        rw [show p = e.1 from hep.symm]
        rw [semFold_map_replace_self e.1 e rfl acc hmem 0, if_neg hv]
      · rw [semStep, if_neg hep, semGet, semGet]
        exact semFold_map_replace_other e.1 p e rfl (fun h => hep h.symm) acc 0
    · rw [if_neg hmem, semGet, List.foldl_append]
      rfl

theorem semGet_mergeLevels (D : List (ℚ × ℚ)) :
    ∀ (S : List (ℚ × ℚ)) (p : ℚ),
      semGet (mergeLevels S D) p = semGet (S ++ D) p := by
  induction D with
  | nil => intro S p; simp [mergeLevels]
  | cons e D ih =>
    intro S p
    have h1 : mergeLevels S (e :: D) = mergeLevels (mergeStep S e) D := rfl
    rw [h1, ih (mergeStep S e) p]
    rw [semGet, semGet, List.foldl_append, List.foldl_append]
    have h2 : semGet (mergeStep S e) p = semStep p (semGet S p) e :=
      semGet_mergeStep S e p
    rw [semGet] at h2
    rw [h2, List.foldl_cons]
    rfl

theorem dictGet_applyLevels_empty (isAsk : Bool) (L : List (ℚ × ℚ)) (x : ℚ) :
    dictGet (applyLevels (SideBook.emptySide isAsk) L).qty x
      = if 0 < semGet L x then some (semGet L x) else none := by
  induction L using List.reverseRecOn with
  | nil =>
    have : semGet [] x = 0 := rfl
    rw [this]
    simp [applyLevels, SideBook.emptySide, dictGet]
  | append_singleton l e ih =>
    have happ : applyLevels (SideBook.emptySide isAsk) (l ++ [e])
        = (applyLevels (SideBook.emptySide isAsk) l).update_level e.1 e.2 := by
      rw [applyLevels, List.foldl_append]
      rfl
    have hsem : semGet (l ++ [e]) x = semStep x (semGet l x) e := by
      rw [semGet, List.foldl_append]
      rfl
    rw [happ, dictGet_update_level, ih, hsem, semStep]
    by_cases hex : x = e.1
    · rw [if_pos hex, if_pos hex.symm]
      by_cases hv : e.2 ≤ 0
      · rw [if_pos hv, if_pos hv]
        norm_num
      · rw [if_neg hv, if_neg hv, if_pos (lt_of_not_le hv)]
    · have hex2 : ¬ e.1 = x := fun h => hex h.symm
      rw [if_neg hex, if_neg hex2]

theorem mem_prices_applyLevels_empty (isAsk : Bool) (L : List (ℚ × ℚ)) (x : ℚ) :
    x ∈ (applyLevels (SideBook.emptySide isAsk) L).prices ↔ 0 < semGet L x := by
  have hinv := sideInv_applyLevels _ (SideInv.emptySide isAsk) L
  rw [hinv.mem_iff, dictGet_applyLevels_empty]
  by_cases h : 0 < semGet L x <;> simp [h]

theorem sorted_ext (r : ℚ → ℚ → Prop)
    (hir : ∀ a, ¬ r a a) (htr : ∀ a b c, r a b → r b c → r a c) :
    ∀ (l1 l2 : List ℚ), l1.Pairwise r → l2.Pairwise r →
      (∀ x, x ∈ l1 ↔ x ∈ l2) → l1 = l2 := by
  intro l1
  induction l1 with
  | nil =>
    intro l2 _ _ hm
    cases l2 with
    | nil => rfl
    | cons h2 t2 => exact absurd ((hm h2).mpr (List.mem_cons_self h2 t2)) (List.not_mem_nil h2)
  | cons h1 t1 ih =>
    intro l2 hp1 hp2 hm
    cases l2 with
    | nil => exact absurd ((hm h1).mp (List.mem_cons_self h1 t1)) (List.not_mem_nil h1)
    | cons h2 t2 =>
      rcases List.pairwise_cons.mp hp1 with ⟨hh1, ht1⟩
      rcases List.pairwise_cons.mp hp2 with ⟨hh2, ht2⟩
      have hheads : h1 = h2 := by
        by_contra hne
        have hm1 : h1 ∈ h2 :: t2 := (hm h1).mp (List.mem_cons_self h1 t1)
        have hm2 : h2 ∈ h1 :: t1 := (hm h2).mpr (List.mem_cons_self h2 t2)
        have hr1 : r h2 h1 := by
          rcases List.mem_cons.mp hm1 with h | h
          · exact absurd h hne
          · exact hh2 h1 h
        have hr2 : r h1 h2 := by
          rcases List.mem_cons.mp hm2 with h | h
          · exact absurd h.symm hne
          · exact hh1 h2 h
        exact hir h1 (htr h1 h2 h1 hr2 hr1)
      subst hheads
      have hmt : ∀ x, x ∈ t1 ↔ x ∈ t2 := by
        intro x
        constructor
        · intro hx
          have := (hm x).mp (List.mem_cons_of_mem h1 hx)
          rcases List.mem_cons.mp this with h | h
          · exact absurd (h ▸ hh1 x hx) (hir h1)
          · exact h
        · intro hx
          have := (hm x).mpr (List.mem_cons_of_mem h1 hx)
          rcases List.mem_cons.mp this with h | h
          · exact absurd (h ▸ hh2 x hx) (hir h1)
          · exact h
      rw [ih t2 ht1 ht2 hmt]

theorem buildSide_merge (isAsk : Bool) (S D : List (ℚ × ℚ)) :
    (applyLevels (applyLevels (SideBook.emptySide isAsk) S) D).prices
      = (applyLevels (SideBook.emptySide isAsk) (mergeLevels S D)).prices
    ∧ ∀ x : ℚ,
      dictGet (applyLevels (applyLevels (SideBook.emptySide isAsk) S) D).qty x
        = dictGet (applyLevels (SideBook.emptySide isAsk) (mergeLevels S D)).qty x := by
  have happ : applyLevels (applyLevels (SideBook.emptySide isAsk) S) D
      = applyLevels (SideBook.emptySide isAsk) (S ++ D) := by
    rw [applyLevels, applyLevels, applyLevels, List.foldl_append]
  rw [happ]
  have hget : ∀ x : ℚ,
      dictGet (applyLevels (SideBook.emptySide isAsk) (S ++ D)).qty x
        = dictGet (applyLevels (SideBook.emptySide isAsk) (mergeLevels S D)).qty x := by
    intro x
    rw [dictGet_applyLevels_empty, dictGet_applyLevels_empty,
      semGet_mergeLevels D S x]
  refine ⟨?_, hget⟩
  have hmem : ∀ x : ℚ,
      x ∈ (applyLevels (SideBook.emptySide isAsk) (S ++ D)).prices
        ↔ x ∈ (applyLevels (SideBook.emptySide isAsk) (mergeLevels S D)).prices := by
    intro x
    rw [mem_prices_applyLevels_empty, mem_prices_applyLevels_empty,
      semGet_mergeLevels D S x]
  have hs1 := (sideInv_applyLevels _ (SideInv.emptySide isAsk) (S ++ D)).sorted
  have hs2 := (sideInv_applyLevels _ (SideInv.emptySide isAsk) (mergeLevels S D)).sorted
  rw [applyLevels_is_ask] at hs1 hs2
  cases isAsk with
  | true =>
    exact sorted_ext (fun a b => a < b) (fun a => lt_irrefl a)
      (fun a b c => lt_trans) _ _ hs1 hs2 hmem
  | false =>
    exact sorted_ext (fun a b => b < a) (fun a => lt_irrefl a)
      (fun a b c hab hbc => lt_trans hbc hab) _ _ hs1 hs2 hmem

/-- C5: applying snapshot S then diff D to any order book yields, on both
sides, the same final state (identical price sequences and identical
price-to-quantity mapping) as one snapshot of the level-by-level merge in
which D's entries override — or, at quantity ≤ 0, remove — S's entries at
matching prices and leave the rest untouched. -/
theorem c5_snapshot_diff_merge (ob : OrderBook) (Sb Sa Db Da : List (ℚ × ℚ)) :
    ((ob.apply_snapshot Sb Sa).apply_diff Db Da).bids.prices
        = (ob.apply_snapshot (mergeLevels Sb Db) (mergeLevels Sa Da)).bids.prices
    ∧ ((ob.apply_snapshot Sb Sa).apply_diff Db Da).asks.prices
        = (ob.apply_snapshot (mergeLevels Sb Db) (mergeLevels Sa Da)).asks.prices
    ∧ (∀ x : ℚ, dictGet ((ob.apply_snapshot Sb Sa).apply_diff Db Da).bids.qty x
        = dictGet (ob.apply_snapshot (mergeLevels Sb Db) (mergeLevels Sa Da)).bids.qty x)
    ∧ (∀ x : ℚ, dictGet ((ob.apply_snapshot Sb Sa).apply_diff Db Da).asks.qty x
        = dictGet (ob.apply_snapshot (mergeLevels Sb Db) (mergeLevels Sa Da)).asks.qty x) := by
  obtain ⟨hbp, hbg⟩ := buildSide_merge false Sb Db
  obtain ⟨hap, hag⟩ := buildSide_merge true Sa Da
  exact ⟨hbp, hap, hbg, hag⟩

/-! ### Claim C6 -/

/-- From the spec's words: the prefix of the stream up to and including the
first record satisfying the predicate (all of it when none does). -/
def takeUntilIncl (pr : FeedRecord → Bool) : List FeedRecord → List FeedRecord
  | [] => []
  | r :: rest => if pr r then [r] else r :: takeUntilIncl pr rest

/-- From the spec's words: apply the first qualifying record as a full
snapshot and every later one as a diff. -/
def specBuild (book0 : OrderBook) : List FeedRecord → OrderBook
  | [] => book0
  | f :: rest =>
    rest.foldl (fun b r => b.apply_diff r.bids r.asks)
      (book0.apply_snapshot f.bids f.asks)

theorem buildGo_cons_true (symbol : String) (u : ℚ) (book : OrderBook)
    (r : FeedRecord) (rest : List FeedRecord) :
    buildGo symbol u book true (r :: rest)
      = if r.symbol = symbol then
          (if u ≤ r.time then book.apply_diff r.bids r.asks
           else buildGo symbol u (book.apply_diff r.bids r.asks) true rest)
        else buildGo symbol u book true rest := by
  rw [buildGo]
  rfl

theorem buildGo_cons_false (symbol : String) (u : ℚ) (book : OrderBook)
    (r : FeedRecord) (rest : List FeedRecord) :
    buildGo symbol u book false (r :: rest)
      = if r.symbol = symbol then
          (if u ≤ r.time then book.apply_snapshot r.bids r.asks
           else buildGo symbol u (book.apply_snapshot r.bids r.asks) true rest)
        else buildGo symbol u book false rest := by
  rw [buildGo]
  rfl

theorem buildGo_true (symbol : String) (u : ℚ) :
    ∀ (rows : List FeedRecord) (book : OrderBook),
      buildGo symbol u book true rows
        = (takeUntilIncl (fun r => decide (u ≤ r.time))
            (rows.filter (fun r => decide (r.symbol = symbol)))).foldl
            (fun b r => b.apply_diff r.bids r.asks) book := by
  intro rows
  induction rows with
  | nil => intro book; rfl
  | cons r rest ih =>
    intro book
    by_cases hsym : r.symbol = symbol
    · rw [buildGo_cons_true, if_pos hsym, List.filter_cons,
        if_pos (decide_eq_true hsym)]
      by_cases htime : u ≤ r.time
      · rw [if_pos htime, takeUntilIncl, if_pos (decide_eq_true htime)]
        rfl
      · have hd : ¬ ((fun r => decide (u ≤ (r : FeedRecord).time)) r = true) := by
          intro h
          exact htime (of_decide_eq_true h)
        rw [if_neg htime, takeUntilIncl, if_neg hd, List.foldl_cons]
        exact ih (book.apply_diff r.bids r.asks)
    · have hd : ¬ ((fun r => decide ((r : FeedRecord).symbol = symbol)) r = true) := by
        intro h
        exact hsym (of_decide_eq_true h)
      rw [buildGo_cons_true, if_neg hsym, List.filter_cons, if_neg hd]
      exact ih book

theorem buildGo_false (symbol : String) (u : ℚ) :
    ∀ (rows : List FeedRecord) (book : OrderBook),
      buildGo symbol u book false rows
        = specBuild book
            (takeUntilIncl (fun r => decide (u ≤ r.time))
              (rows.filter (fun r => decide (r.symbol = symbol)))) := by
  intro rows
  induction rows with
  | nil => intro book; rfl
  | cons r rest ih =>
    intro book
    by_cases hsym : r.symbol = symbol
    · rw [buildGo_cons_false, if_pos hsym, List.filter_cons,
        if_pos (decide_eq_true hsym)]
      by_cases htime : u ≤ r.time
      · rw [if_pos htime, takeUntilIncl, if_pos (decide_eq_true htime)]
        rfl
      · have hd : ¬ ((fun r => decide (u ≤ (r : FeedRecord).time)) r = true) := by
          intro h
          exact htime (of_decide_eq_true h)
        rw [if_neg htime, takeUntilIncl, if_neg hd]
        rw [buildGo_true symbol u rest (book.apply_snapshot r.bids r.asks)]
        rfl
    · have hd : ¬ ((fun r => decide ((r : FeedRecord).symbol = symbol)) r = true) := by
        intro h
        exact hsym (of_decide_eq_true h)
      rw [buildGo_cons_false, if_neg hsym, List.filter_cons, if_neg hd]
      exact ih book

/-- One record of the build-until boundary example: a diff for symbol "S"
at the given time adding one bid level. -/
def exR (t p : ℚ) : FeedRecord := ⟨"S", t, [(p, 1)], []⟩

/-- The boundary example's stream: qualifying records at timestamps
1, 2, 3, 5 and a further one at 7. -/
def exRows : List FeedRecord := [exR 1 10, exR 2 11, exR 3 12, exR 5 13, exR 7 14]

/-- C6: `build_until` applies the first record for the symbol as a full
snapshot and every later one as a diff, stopping right after the first
record whose timestamp reaches the horizon (that record is applied), or at
stream exhaustion, and returns the top-10 of the result; the registry maps
the symbol to the final book.  In particular, with records at timestamps
1, 2, 3, 5 (and one at 7) and horizon 4, exactly the first four records are
applied — including the one at timestamp 5. -/
theorem c6_build_until :
    (∀ (E : OrderBookEngine) (rows : List FeedRecord) (symbol : String) (u : ℚ),
      (E.build_until rows symbol u).2
        = (specBuild ((dictGet E.books symbol).getD OrderBook.empty)
            (takeUntilIncl (fun r => decide (u ≤ r.time))
              (rows.filter (fun r => decide (r.symbol = symbol))))).top10
      ∧ (E.build_until rows symbol u).1.books
        = dictSet E.books symbol
            (specBuild ((dictGet E.books symbol).getD OrderBook.empty)
              (takeUntilIncl (fun r => decide (u ≤ r.time))
                (rows.filter (fun r => decide (r.symbol = symbol))))))
    ∧ takeUntilIncl (fun r => decide ((4:ℚ) ≤ r.time)) exRows
        = [exR 1 10, exR 2 11, exR 3 12, exR 5 13]
    ∧ (OrderBookEngine.emptyEngine.build_until exRows "S" 4).2.bids
        = [(13, 1), (12, 1), (11, 1), (10, 1)] := by
  refine ⟨?_, by decide, by decide⟩
  intro E rows symbol u
  constructor
  · simp only [OrderBookEngine.build_until]
    rw [buildGo_false symbol u rows]
  · simp only [OrderBookEngine.build_until]
    rw [buildGo_false symbol u rows]

/-! ### Claim C7 -/

/-- C7 counterexample: with quantity 0 (≤ 0) and an unrecognized side token,
`place_limit_order` does not raise InvalidArgument — the non-positive
quantity check comes first and returns the current top-10 normally. -/
theorem c7_counterexample :
    ¬ (strLower "westside" = "buy" ∨ strLower "westside" = "bid"
        ∨ strLower "westside" = "sell" ∨ strLower "westside" = "ask")
    ∧ (OrderBook.empty.place_limit_order "westside" 1 0).2
        = Except.ok (OrderBook.empty.top10)
    ∧ ∀ msg : String,
        (OrderBook.empty.place_limit_order "westside" 1 0).2 ≠ Except.error msg := by
  refine ⟨by decide, rfl, ?_⟩
  intro msg h
  rw [place_noop OrderBook.empty "westside" 1 0 le_rfl] at h
  exact Except.noConfusion h

/-- C7 (amended): with a strictly positive quantity, an unrecognized side
token (case-insensitively not one of buy, bid, sell, ask) makes
`place_limit_order` fail with the InvalidArgument error; a quantity ≤ 0
returns the top-10 before the token is ever examined. -/
theorem c7_invalid_side (ob : OrderBook) (side : String) (P Q : ℚ) (hQ : 0 < Q)
    (hs : ¬ (strLower side = "buy" ∨ strLower side = "bid"
        ∨ strLower side = "sell" ∨ strLower side = "ask")) :
    (ob.place_limit_order side P Q).2
      = Except.error "side must be buy/bid or sell/ask" := by
  have hs1 : ¬ (strLower side = "buy" ∨ strLower side = "bid") := fun h => hs (by tauto)
  have hs2 : ¬ (strLower side = "sell" ∨ strLower side = "ask") := fun h => hs (by tauto)
  rw [place_invalid_eq ob side P Q (not_le.mpr hQ) hs1 hs2]

/-- C7 witness: the amended theorem applied at a concrete unrecognized
token with positive quantity. -/
theorem c7_invalid_side_witness :
    (0:ℚ) < 1
    ∧ ¬ (strLower "hold" = "buy" ∨ strLower "hold" = "bid"
        ∨ strLower "hold" = "sell" ∨ strLower "hold" = "ask")
    ∧ (OrderBook.empty.place_limit_order "hold" 1 1).2
        = Except.error "side must be buy/bid or sell/ask" :=
  ⟨by norm_num, by decide,
   c7_invalid_side OrderBook.empty "hold" 1 1 (by norm_num) (by decide)⟩

/-! ### Claim C8 -/

/-- C8: a quantity ≤ 0 makes `place_limit_order` return the current top-10
normally, for any side token, and leaves both sides of the book completely
unchanged. -/
theorem c8_nonpositive_qty (ob : OrderBook) (side : String) (P Q : ℚ)
    (hQ : Q ≤ 0) :
    ob.place_limit_order side P Q = (ob, Except.ok ob.top10)
    ∧ (ob.place_limit_order side P Q).1.bids = ob.bids
    ∧ (ob.place_limit_order side P Q).1.asks = ob.asks := by
  have h := place_noop ob side P Q hQ
  refine ⟨h, ?_, ?_⟩ <;> rw [h]

/-- C8 witness: the theorem applied at the concrete example book with an
unrecognized token and quantity 0. -/
theorem c8_nonpositive_qty_witness :
    (0:ℚ) ≤ 0
    ∧ exBook.place_limit_order "westside" 100 0 = (exBook, Except.ok exBook.top10) :=
  ⟨le_rfl, (c8_nonpositive_qty exBook "westside" 100 0 le_rfl).1⟩

/-! ### Claim C9 -/

/-- The engine after a `build_until` for symbol "X" over an empty stream:
no event for "X" was ever processed, yet the symbol is registered. -/
def exEngineX : OrderBookEngine :=
  (OrderBookEngine.emptyEngine.build_until [] "X" 4).1

/-- C9 counterexample: after `build_until("X", ...)` over a stream with no
records at all, the instrument "X" has had no prior events, yet `expose`
returns the (empty) live book rather than failing with NotFound. -/
theorem c9_counterexample :
    exEngineX.expose "X" = some OrderBook.empty
    ∧ exEngineX.expose "X" ≠ none := by
  decide

/-- C9 (amended): `expose` returns the live book exactly for the symbols in
the registry — every symbol previously passed to `build_until`, whether or
not any event for it was processed — and yields none (NotFound) otherwise,
in particular on a fresh engine. -/
theorem c9_expose_registry :
    (∀ s : String, OrderBookEngine.emptyEngine.expose s = none)
    ∧ (∀ (E : OrderBookEngine) (rows : List FeedRecord) (s : String) (u : ℚ),
        ((E.build_until rows s u).1.expose s).isSome = true)
    ∧ (∀ (E : OrderBookEngine) (s : String),
        (E.expose s).isSome = dictMem E.books s) := by
  refine ⟨fun s => rfl, ?_, fun E s => dictGet_isSome E.books s⟩
  intro E rows s u
  simp only [OrderBookEngine.build_until, OrderBookEngine.expose]
  rw [dictGet_dictSet, if_pos rfl]
  rfl

/-! ### Claim C10 -/

/-- C10: when `place_limit_order` rejects an unrecognized side token (with
positive quantity), the error is raised before any level is touched: both
sides of the returned book state are exactly the sides of the original
book. -/
theorem c10_invalid_side_atomic (ob : OrderBook) (side : String) (P Q : ℚ)
    (hQ : 0 < Q)
    (hs : ¬ (strLower side = "buy" ∨ strLower side = "bid"
        ∨ strLower side = "sell" ∨ strLower side = "ask")) :
    (ob.place_limit_order side P Q).1.bids = ob.bids
    ∧ (ob.place_limit_order side P Q).1.asks = ob.asks
    ∧ ∃ msg : String, (ob.place_limit_order side P Q).2 = Except.error msg := by
  have hs1 : ¬ (strLower side = "buy" ∨ strLower side = "bid") := fun h => hs (by tauto)
  have hs2 : ¬ (strLower side = "sell" ∨ strLower side = "ask") := fun h => hs (by tauto)
  rw [place_invalid_eq ob side P Q (not_le.mpr hQ) hs1 hs2]
  exact ⟨rfl, rfl, ⟨_, rfl⟩⟩

/-- C10 witness: the atomicity theorem applied at the concrete example book
with an unrecognized token and positive quantity. -/
theorem c10_invalid_side_atomic_witness :
    (0:ℚ) < 2
    ∧ ¬ (strLower "limits" = "buy" ∨ strLower "limits" = "bid"
        ∨ strLower "limits" = "sell" ∨ strLower "limits" = "ask")
    ∧ (exBook.place_limit_order "limits" 99 2).1.bids = exBook.bids
    ∧ (exBook.place_limit_order "limits" 99 2).1.asks = exBook.asks := by
  have h := c10_invalid_side_atomic exBook "limits" 99 2 (by norm_num) (by decide)
  exact ⟨by norm_num, by decide, h.1, h.2.1⟩

end OrderBookSpec
